/-
Verification of the FoodSafetyIntelligence pipeline against its specification.

The Python sources under src/ are shallowly embedded here:
* strings are embedded as `List Char` (`Str`); Python `len`, `strip`,
  `split("\n")`, `"\n".join`, `lower` become executable Lean functions below;
* dataclasses become structures, module functions become `def`s keeping the
  source names where Lean allows it (`section` is a Lean keyword, so the
  Article field `section` is embedded as `section_`);
* fallible code (`detect_format` raising ValueError) returns `Except`.
-/
import Mathlib

namespace FSI

/-- Python strings, embedded as lists of characters (so that `len`
corresponds to `List.length`, and slicing / scanning are structural). -/
abbrev Str := List Char

/-- Shorthand to write concrete embedded strings. -/
def str (s : String) : Str := s.data

/-- The whitespace class recognised by Python `str.strip()` / `\s` on the
ASCII range used by the corpus texts: space, tab, newline, carriage return,
vertical tab, form feed. -/
def isSpace (c : Char) : Bool :=
  c = ' ' || c = '\t' || c = '\n' || c = '\r' || c = Char.ofNat 11 || c = Char.ofNat 12

/-- Python `s.strip()`: drop leading and trailing whitespace. -/
def strip (s : Str) : Str :=
  ((s.dropWhile isSpace).reverse.dropWhile isSpace).reverse

/-- Python `s.split("\n")`: split at every newline, keeping empty pieces
(`"" .split("\n") = [""]`). -/
def splitNl : Str → List Str
  | [] => [[]]
  | c :: rest =>
    if c = '\n' then [] :: splitNl rest
    else
      match splitNl rest with
      | [] => [[c]]
      | p :: ps => (c :: p) :: ps

/-- Python `"\n".join(pieces)`. -/
def joinNl : List Str → Str
  | [] => []
  | [s] => s
  | s :: rest => s ++ '\n' :: joinNl rest

/-- Python `s.lower()` (ASCII case folding, which is all the corpus uses). -/
def lower (s : Str) : Str := s.map Char.toLower

/-! ## src/ingestion/html_parser.py — data model -/

/-- `Article` dataclass from src/ingestion/html_parser.py.  The Python field
`section` is embedded as `section_` (Lean keyword). -/
structure Article where
  celex_id : Str
  article_number : Nat
  title : Str
  text : Str
  chapter : Str := []
  section_ : Str := []
deriving Repr, DecidableEq

/-- `ParsedRegulation` dataclass from src/ingestion/html_parser.py. -/
structure ParsedRegulation where
  celex_id : Str
  title : Str
  articles : List Article := []
  preamble_text : Str := []
  format_type : Str := []
deriving Repr, DecidableEq

/-! ## src/retrieval/chunking.py -/

/-- `MAX_CHUNK_CHARS` from src/retrieval/chunking.py. -/
def MAX_CHUNK_CHARS : Nat := 2000

/-- `MIN_CHUNK_CHARS` from src/retrieval/chunking.py. -/
def MIN_CHUNK_CHARS : Nat := 200

/-- `ArticleChunk` dataclass from src/retrieval/chunking.py.  `char_count`
is always set to `len(text)` by `__post_init__`, so it is embedded as a
derived function below rather than a stored field. -/
structure ArticleChunk where
  celex_id : Str
  article_number : Nat
  article_title : Str
  text : Str
  chapter : Str := []
  section_ : Str := []
  chunk_index : Nat := 0
  total_chunks : Nat := 1
deriving Repr, DecidableEq

/-- `ArticleChunk.char_count` (set by `__post_init__` to `len(self.text)`). -/
def ArticleChunk.char_count (c : ArticleChunk) : Nat := c.text.length

/-- One step of the paragraph-accumulation loop of `chunk_article`
(src/retrieval/chunking.py lines 125-136).  State is
`(chunks_text, current_parts, current_len)`. -/
def chunkStep (max_chars : Nat) (st : List Str × List Str × Nat) (para0 : Str) :
    List Str × List Str × Nat :=
  let chunks_text := st.1
  let current_parts := st.2.1
  let current_len := st.2.2
  let para := strip para0
  if para = [] then (chunks_text, current_parts, current_len)
  else if max_chars < current_len + para.length ∧ MIN_CHUNK_CHARS ≤ current_len then
    (chunks_text ++ [joinNl current_parts], [para], para.length)
  else
    (chunks_text, current_parts ++ [para], current_len + para.length)

/-- The post-loop step of `chunk_article` (lines 138-143): flush the
trailing accumulation, merging it into the previous chunk when it is
undersized (`chunks_text[-1] += "\n" + "\n".join(current_parts)`). -/
def mergeTrailing (st : List Str × List Str × Nat) : List Str :=
  if st.2.1 ≠ [] then
    if 0 < st.1.length ∧ st.2.2 < MIN_CHUNK_CHARS then
      st.1.dropLast ++ [st.1.getLastD [] ++ '\n' :: joinNl st.2.1]
    else
      st.1 ++ [joinNl st.2.1]
  else st.1

/-- The sub-chunking pass of `chunk_article` (src/retrieval/chunking.py
lines 119-143): the paragraph loop followed by the trailing merge step. -/
def buildChunks (max_chars : Nat) (paragraphs : List Str) : List Str :=
  mergeTrailing (paragraphs.foldl (chunkStep max_chars) ([], [], 0))

/-- The paragraphs the sub-chunking loop actually accumulates: each
paragraph stripped, whitespace-only ones skipped (lines 126-128). -/
def cleanedParas (paras : List Str) : List Str :=
  (paras.map strip).filter (fun p => !p.isEmpty)

/-- Invariant of the sub-chunking loop relating the running state
`(chunks_text, current_parts, current_len)` to the cleaned paragraphs
processed so far: the closed chunks are newline-joins of an initial run of
non-empty consecutive groups, the open accumulation is the remaining suffix,
and `current_len` is the summed length of the open accumulation. -/
def ChunkInv (st : List Str × List Str × Nat) (done : List Str) : Prop :=
  ∃ gs : List (List Str),
    gs.flatten ++ st.2.1 = done ∧ (∀ g ∈ gs, g ≠ []) ∧ st.1 = gs.map joinNl ∧
      st.2.2 = (st.2.1.map List.length).sum

/-- Pair each chunk text with its index (the final list comprehension of
`chunk_article`). -/
def numberChunks (article : Article) (total : Nat) : Nat → List Str → List ArticleChunk
  | _, [] => []
  | i, t :: rest =>
    { celex_id := article.celex_id
      article_number := article.article_number
      article_title := article.title
      text := t
      chapter := article.chapter
      section_ := article.section_
      chunk_index := i
      total_chunks := total } :: numberChunks article total (i + 1) rest

/-- `chunk_article` from src/retrieval/chunking.py (lines 89-158). -/
def chunk_article (article : Article) (max_chars : Nat := MAX_CHUNK_CHARS) :
    List ArticleChunk :=
  if strip article.text = [] then
    [{ celex_id := article.celex_id
       article_number := article.article_number
       article_title := article.title
       text := if article.title = [] then str "(empty article)" else article.title
       chapter := article.chapter
       section_ := article.section_ }]
  else if article.text.length ≤ max_chars then
    [{ celex_id := article.celex_id
       article_number := article.article_number
       article_title := article.title
       text := article.text
       chapter := article.chapter
       section_ := article.section_ }]
  else
    let chunks_text := buildChunks max_chars (splitNl article.text)
    numberChunks article chunks_text.length 0 chunks_text

/-! ## src/ingestion/html_parser.py — parsing

BeautifulSoup DOM traversal cannot be embedded shallowly; a loaded HTML file
is therefore represented by what the parser observes of it: the three
structural markers consulted by `detect_format`, and — for the legacy branch —
the list of stripped, non-empty `<p>` texts of its text container, which is
exactly the `paragraphs` list `_parse_html_legacy` builds before its scan
(lines 226-230).  The two XHTML branches are DOM walks over markup classes;
they are represented opaquely by their resulting `ParsedRegulation` (no claim
concerns their interior). -/

/-- A loaded EUR-Lex HTML document, as observed by the parser. -/
structure RawDoc where
  hasEliContainer : Bool
  hasTiArt : Bool
  hasTexteOnly : Bool
  pars : List Str := []
  xhtmlResult : ParsedRegulation := { celex_id := [], title := [] }
deriving Repr

/-- `detect_format` from src/ingestion/html_parser.py (lines 42-50).  The
Python raises `ValueError` when no marker is found; this is embedded as
`Except.error`. -/
def detect_format (d : RawDoc) : Except Str Str :=
  if d.hasEliContainer then .ok (str "xhtml")
  else if d.hasTiArt then .ok (str "xhtml_mid")
  else if d.hasTexteOnly then .ok (str "html_legacy")
  else .error (str "Unknown EUR-Lex HTML format: no eli-container, ti-art, or TexteOnly div found")

/-- Digits of a matched `\d+` group, as read by Python `int`. -/
def digitsToNat (ds : List Char) : Nat :=
  ds.foldl (fun n c => n * 10 + (c.toNat - 48)) 0

/-- Python `re.match(r"^Article\s+(\d+)$", s)`: the whole paragraph is
`Article`, one or more whitespace characters, one or more digits. -/
def parseArticleHeading (s : Str) : Option Nat :=
  if (str "Article").isPrefixOf s then
    let rest := s.drop 7
    let ws := rest.takeWhile isSpace
    let rest2 := rest.dropWhile isSpace
    let ds := rest2.takeWhile Char.isDigit
    if ws ≠ [] ∧ ds ≠ [] ∧ rest2.dropWhile Char.isDigit = [] then
      some (digitsToNat ds)
    else none
  else none

/-- Python `re.match(r"^\d+\.", s)` as a Bool. -/
def matchesNumDot (s : Str) : Bool :=
  decide (s.takeWhile Char.isDigit ≠ []) &&
    (match s.dropWhile Char.isDigit with
     | c :: _ => c = '.'
     | [] => false)

/-- Python `re.match(r"^Article\s+\d+", s)` as a Bool (prefix match only). -/
def startsArticleRef (s : Str) : Bool :=
  (str "Article").isPrefixOf s &&
    (let rest := (s.drop 7)
     decide (rest.takeWhile isSpace ≠ []) &&
       decide ((rest.dropWhile isSpace).takeWhile Char.isDigit ≠ []))

/-- A regex word character (for `\b`). -/
def isWordChar (c : Char) : Bool :=
  c.isAlpha || c.isDigit || c = '_'

/-- Python `re.match(r"^ANNEX\b", s)` as a Bool. -/
def startsAnnex (s : Str) : Bool :=
  (str "ANNEX").isPrefixOf s &&
    (match s.drop 5 with
     | [] => true
     | c :: _ => !isWordChar c)

/-- Python `s.startswith("(")` as a Bool. -/
def startsParen (s : Str) : Bool :=
  match s with
  | c :: _ => c = '('
  | [] => false

/-- A paragraph at which legacy body collection stops (lines 265-269 of
src/ingestion/html_parser.py): the next article heading or an annex marker. -/
def isLegacyBoundary (p : Str) : Bool :=
  (parseArticleHeading p).isSome || startsAnnex p

/-- The subtitle heuristic of `_parse_html_legacy` (lines 245-259), applied
to the paragraphs following an `Article N` heading: the next paragraph is the
article title when it is short and does not look like a numbered sub-clause,
another article heading, or a parenthesized list item. -/
def legacySubtitleOk (rest : List Str) : Bool :=
  match rest with
  | [] => false
  | next :: _ =>
    decide (next.length < 200) && !matchesNumDot next &&
      !startsArticleRef next && !startsParen next

/-- The paragraphs following a heading once the subtitle (if any) has been
consumed (`body_start` in the Python). -/
def legacyAfterTitle (rest : List Str) : List Str :=
  if legacySubtitleOk rest then rest.tail else rest

/-- Body paragraphs of one legacy article: collected until the next article
heading or annex marker (lines 262-271). -/
def legacyBody (rest : List Str) : List Str :=
  (legacyAfterTitle rest).takeWhile (fun q => !isLegacyBoundary q)

/-- Where the outer scan resumes after one article (`i = j`, line 280). -/
def legacyRest (rest : List Str) : List Str :=
  (legacyAfterTitle rest).dropWhile (fun q => !isLegacyBoundary q)

theorem legacyAfterTitle_length (rest : List Str) :
    (legacyAfterTitle rest).length ≤ rest.length := by
  unfold legacyAfterTitle
  split
  · cases rest <;> simp
  · exact Nat.le_refl _

theorem legacyRest_length (rest : List Str) :
    (legacyRest rest).length ≤ rest.length := by
  have h1 := ((legacyAfterTitle rest).dropWhile_sublist
      (fun q => !isLegacyBoundary q)).length_le
  have h2 := legacyAfterTitle_length rest
  unfold legacyRest
  omega

/-- The article-boundary scan of `_parse_html_legacy`
(src/ingestion/html_parser.py lines 236-282): find `Article N` headings,
apply the subtitle heuristic to the following paragraph, collect body
paragraphs up to the next boundary, and resume the outer scan there. -/
def legacyScan (celex : Str) : List Str → List Article
  | [] => []
  | p :: rest =>
    match parseArticleHeading p with
    | none => legacyScan celex rest
    | some n =>
      { celex_id := celex, article_number := n,
        title := if legacySubtitleOk rest then rest.headD [] else [],
        text := joinNl (legacyBody rest) } :: legacyScan celex (legacyRest rest)
  termination_by l => l.length
  decreasing_by
  all_goals simp only [List.length_cons]
  · omega
  · exact Nat.lt_succ_of_le (legacyRest_length _)

/-- The Python function `_parse_html_legacy` from src/ingestion/html_parser.py
(lines 216-289), over the extracted paragraph list.  The `texte_div` missing
branch (line 220) cannot arise via `parse_regulation` (the marker was just
detected) and corresponds to `pars = []` here. -/
def parse_html_legacy (pars : List Str) (celex : Str) : ParsedRegulation :=
  { celex_id := celex
    title := pars.headD celex
    articles := legacyScan celex pars
    format_type := str "html_legacy" }

/-- `parse_regulation` from src/ingestion/html_parser.py (lines 292-313):
dispatch on the detected format.  The `ValueError` of `detect_format`
propagates (there is no handler). -/
def parse_regulation (d : RawDoc) (celex : Str) : Except Str ParsedRegulation :=
  match detect_format d with
  | .error e => .error e
  | .ok f =>
    if f = str "xhtml" ∨ f = str "xhtml_mid" then .ok d.xhtmlResult
    else .ok (parse_html_legacy d.pars celex)

/-- `parse_corpus` from src/ingestion/html_parser.py (lines 316-330): parse
every file of the (name-sorted) directory listing in order.  The Python loop
has no try/except, so the first `ValueError` raised by `parse_regulation`
propagates and aborts the loop — embedded by the short-circuiting `mapM` in
`Except`. -/
def parse_corpus (files : List (Str × RawDoc)) : Except Str (List ParsedRegulation) :=
  files.mapM (fun f => parse_regulation f.2 f.1)

/-! ## src/ingestion/corpus.py

The static catalog.  Only the `category` and `title` fields are consulted by
the embedded operations (`extract_defined_terms` and the routing table);
the free-text `description` field is not, and is omitted. -/

/-- One `CORPUS` entry from src/ingestion/corpus.py. -/
structure CorpusInfo where
  category : Str
  title : Str
deriving Repr, DecidableEq

/-- `CORPUS` from src/ingestion/corpus.py, in source order. -/
def CORPUS : List (Str × CorpusInfo) := [
  (str "32002R0178", { category := str "general_food_law", title := str "General Food Law Regulation" }),
  (str "32019R1381", { category := str "general_food_law", title := str "Transparency and sustainability of EU risk assessment in food chain" }),
  (str "32004R0852", { category := str "general_food_law", title := str "Hygiene of foodstuffs" }),
  (str "32004R0853", { category := str "general_food_law", title := str "Hygiene rules for food of animal origin" }),
  (str "32011R0016", { category := str "general_food_law", title := str "Implementing measures for the Rapid Alert System for Food and Feed" }),
  (str "32015R2283", { category := str "novel_food", title := str "Novel Foods Regulation" }),
  (str "32017R2468", { category := str "novel_food", title := str "Novel food application requirements" }),
  (str "32017R2469", { category := str "novel_food", title := str "Novel food application requirements (traditional foods from third countries)" }),
  (str "32017R2470", { category := str "novel_food", title := str "Union List of novel foods" }),
  (str "32018R0456", { category := str "novel_food", title := str "Procedural steps of the consultation process for novel food status" }),
  (str "32008R1333", { category := str "food_additives", title := str "Food Additives Regulation" }),
  (str "32008R1331", { category := str "food_additives", title := str "Common authorisation procedure for food additives, enzymes, flavourings" }),
  (str "32012R0231", { category := str "food_additives", title := str "Specifications for food additives" }),
  (str "32008R1332", { category := str "food_enzymes", title := str "Food Enzymes Regulation" }),
  (str "32008R1334", { category := str "flavourings", title := str "Flavourings Regulation" }),
  (str "32004R1935", { category := str "food_contact_materials", title := str "Food Contact Materials framework regulation" }),
  (str "32011R0010", { category := str "food_contact_materials", title := str "Plastic food contact materials" }),
  (str "32022R1616", { category := str "food_contact_materials", title := str "Recycled plastic food contact materials" }),
  (str "32006R2023", { category := str "food_contact_materials", title := str "Good Manufacturing Practice for food contact materials" }),
  (str "32011R1169", { category := str "labelling_fic", title := str "Food Information to Consumers (FIC) Regulation" }),
  (str "32013R1337", { category := str "labelling_fic", title := str "Origin labelling for meat" }),
  (str "32006R1924", { category := str "nutrition_health_claims", title := str "Nutrition and Health Claims Regulation" }),
  (str "32012R0432", { category := str "nutrition_health_claims", title := str "List of permitted health claims" }),
  (str "32023R0915", { category := str "contaminants", title := str "Maximum levels for contaminants in food" }),
  (str "32006R1881", { category := str "contaminants", title := str "Maximum levels for contaminants in food (predecessor)" }),
  (str "32017R0625", { category := str "official_controls", title := str "Official Controls Regulation" }),
  (str "32018R0848", { category := str "organic", title := str "Organic Production Regulation" }),
  (str "32013R0609", { category := str "food_specific_groups", title := str "Food for Specific Groups Regulation" }),
  (str "32016R0127", { category := str "food_specific_groups", title := str "Requirements for infant formula and follow-on formula" }),
  (str "32002L0046", { category := str "food_supplements", title := str "Food Supplements Directive" }),
  (str "32003R1829", { category := str "gmo", title := str "GM Food and Feed Regulation" }),
  (str "32003R1830", { category := str "gmo", title := str "Traceability and labelling of GMOs" }),
  (str "32006R1925", { category := str "fortification", title := str "Addition of vitamins and minerals to foods" })]

/-- Python `CORPUS.get(celex, {}).get("category", "")`. -/
def corpusCategory (celex : Str) : Str :=
  match CORPUS.find? (fun e => decide (e.1 = celex)) with
  | some e => e.2.category
  | none => []

/-- Python `CORPUS.get(celex, {}).get("title", celex)`. -/
def corpusTitle (celex : Str) : Str :=
  match CORPUS.find? (fun e => decide (e.1 = celex)) with
  | some e => e.2.title
  | none => celex

/-! ## src/extraction/entity_extractor.py

The two drafting-convention regexes `_TERM_PATTERN` and `_CELEX_REF_PATTERN`
are hand-compiled into recursive matchers over `Str`.  `re.finditer` scans
candidate start positions left to right and resumes after each match's end;
that scan is `scanTerms` / `scanRefs` below (the fuel argument is the text
length — every successful match consumes at least one character, so it never
runs out before the text does). -/

/-- The quote glyphs of `_TERM_PATTERN`: left/right single curly quote,
apostrophe, straight double quote, left/right double curly quote,
guillemets. -/
def quoteChars : List Char :=
  [Char.ofNat 0x2018, Char.ofNat 0x2019, Char.ofNat 39, Char.ofNat 34,
   Char.ofNat 0x201C, Char.ofNat 0x201D, Char.ofNat 0xAB, Char.ofNat 0xBB]

/-- Membership in the quote class. -/
def isQuote (c : Char) : Bool := quoteChars.contains c

/-- Case-insensitive literal match (the `re.IGNORECASE` flag): returns the
remaining suffix after the literal. -/
def ciLit : Str → Str → Option Str
  | [], s => some s
  | _, [] => none
  | l :: ls, c :: cs => if c.toLower = l.toLower then ciLit ls cs else none

/-- Regex `\s+`: at least one whitespace character; returns the suffix. -/
def wsPlus (s : Str) : Option Str :=
  match s with
  | c :: cs => if isSpace c then some (cs.dropWhile isSpace) else none
  | [] => none

/-- Regex `(?:shall\s+)?mean[s]?` (case-insensitive), the mandatory tail of
`_TERM_PATTERN`.  The optional `s` of `mean[s]?` is consumed greedily. -/
def matchMeansTail (s : Str) : Option Str :=
  let tryMean : Str → Option Str := fun t =>
    match ciLit (str "mean") t with
    | some r =>
      match r with
      | c :: cs => if c.toLower = 's' then some cs else some r
      | [] => some r
    | none => none
  match (do let r ← ciLit (str "shall") s; wsPlus r) with
  | some r2 =>
    match tryMean r2 with
    | some out => some out
    | none => tryMean s
  | none => tryMean s

/-- Regex `,\s*hereinafter\s+(?:called|referred\s+to\s+as)\s*[q]\s*[^q]+\s*[q]\s*,?\s*`
(the optional hereinafter clause of `_TERM_PATTERN`). -/
def matchHereinafter (s : Str) : Option Str := do
  let r0 ← match s with
           | c :: cs => if c = ',' then some cs else none
           | [] => none
  let r1 := r0.dropWhile isSpace
  let r2 ← ciLit (str "hereinafter") r1
  let r3 ← wsPlus r2
  let r4 ← match ciLit (str "called") r3 with
           | some r => some r
           | none => do
             let r ← ciLit (str "referred") r3
             let r ← wsPlus r
             let r ← ciLit (str "to") r
             let r ← wsPlus r
             ciLit (str "as") r
  let r5 := r4.dropWhile isSpace
  let r6 ← match r5 with
           | q :: t => if isQuote q then some t else none
           | [] => none
  let content := r6.takeWhile (fun c => !isQuote c)
  guard (1 ≤ content.length)
  let r7 ← match r6.dropWhile (fun c => !isQuote c) with
           | _ :: t => some t
           | [] => none
  let r8 := r7.dropWhile isSpace
  let r9 := match r8 with
            | c :: cs => if c = ',' then cs else r8
            | [] => r8
  pure (r9.dropWhile isSpace)

/-- Regex `\([^)]{0,80}\)\s*` (the optional parenthetical of
`_TERM_PATTERN`). -/
def matchParen (s : Str) : Option Str := do
  let r0 ← match s with
           | c :: cs => if c = '(' then some cs else none
           | [] => none
  let content := r0.takeWhile (fun c => c ≠ ')')
  guard (content.length ≤ 80)
  let r1 ← match r0.dropWhile (fun c => c ≠ ')') with
           | _ :: t => some t
           | [] => none
  pure (r1.dropWhile isSpace)

/-- The optional hereinafter clause followed by the means tail, with regex
backtracking (the optional group is dropped when the tail fails after it). -/
def matchHereMeans (s : Str) : Option Str :=
  match matchHereinafter s with
  | some r =>
    match matchMeansTail r with
    | some out => some out
    | none => matchMeansTail s
  | none => matchMeansTail s

/-- Everything of `_TERM_PATTERN` after the closing quote: `\s*`, the
optional parenthetical, the optional hereinafter clause, and the means tail,
with backtracking over the optional groups. -/
def matchTermTail (s0 : Str) : Option Str :=
  let s := s0.dropWhile isSpace
  match matchParen s with
  | some r =>
    match matchHereMeans r with
    | some out => some out
    | none => matchHereMeans s
  | none => matchHereMeans s

/-- Attempt `_TERM_PATTERN` at the head of `s`: an opening quote, a quoted
span, the closing quote, then `matchTermTail`.  The quoted span `content`
(everything up to the next quote glyph) is valid when it has at least two
characters and its whitespace-trimmed core fits the `{2,80}` bound — the
surrounding `\s*` of the pattern absorbs edge whitespace, so the {2,80}
group can always be positioned inside `content` exactly under these
conditions.  The captured group is returned whitespace-trimmed (the
extractor normalizes the capture with `strip` anyway, so edge whitespace of
the raw capture is immaterial).  Returns (capture, remaining suffix). -/
def tryTermMatch (s : Str) : Option (Str × Str) :=
  match s with
  | q :: r0 =>
    if isQuote q then
      let content := r0.takeWhile (fun c => !isQuote c)
      match r0.dropWhile (fun c => !isQuote c) with
      | _ :: r2 =>
        if 2 ≤ content.length ∧ (strip content).length ≤ 80 then
          match matchTermTail r2 with
          | some rem => some (strip content, rem)
          | none => none
        else none
      | [] => none
    else none
  | [] => none

/-- The `re.finditer(_TERM_PATTERN, text)` scan: try each start position in
order; on a match, record (capture, end position) and resume at the match
end. -/
def scanTerms : Nat → Str → Nat → List (Str × Nat)
  | 0, _, _ => []
  | _ + 1, [], _ => []
  | fuel + 1, c :: rest, pos =>
    match tryTermMatch (c :: rest) with
    | some (g, rem) =>
      let fin := pos + ((c :: rest).length - rem.length)
      (g, fin) :: scanTerms fuel rem fin
    | none => scanTerms fuel rest (pos + 1)

/-- All `_TERM_PATTERN` matches of a text, with their end offsets. -/
def findTermMatches (text : Str) : List (Str × Nat) :=
  scanTerms text.length text 0

/-- Python `re.sub(r"\s+", " ", s)`: collapse every whitespace run to a
single space. -/
def collapseWs (s : Str) : Str :=
  (s.foldl (fun (acc : Str × Bool) c =>
    if isSpace c then (if acc.2 then acc.1 else acc.1 ++ [' '], true)
    else (acc.1 ++ [c], false)) ([], false)).1

/-- Python `s.rstrip(",;.")`. -/
def rstripPunct (s : Str) : Str :=
  (s.reverse.dropWhile (fun c => c = ',' || c = ';' || c = '.')).reverse

/-- The Python function `_normalize_term` from
src/extraction/entity_extractor.py (lines 118-126). -/
def normalize_term (raw : Str) : Str :=
  rstripPunct (collapseWs (strip raw))

/-- `DefinedTerm` dataclass from src/extraction/entity_extractor.py. -/
structure DefinedTerm where
  term : Str
  celex_id : Str
  article_number : Nat
  definition_snippet : Str
  category : Str := []
deriving Repr, DecidableEq

/-- The `term_lower` property: `self.term.lower().strip()`. -/
def DefinedTerm.term_lower (d : DefinedTerm) : Str := strip (lower d.term)

/-- `CrossReference` dataclass from src/extraction/entity_extractor.py. -/
structure CrossReference where
  source_celex : Str
  source_article : Nat
  target_regulation_number : Str
  context : Str
deriving Repr, DecidableEq

/-- The definition snippet (lines 155-162): up to 200 characters after the
match end, stripped, truncated at the first semicolon when that semicolon
appears after character 50. -/
def snippetOf (text : Str) (endPos : Nat) : Str :=
  let snippet := strip ((text.drop endPos).take 200)
  let i := (snippet.takeWhile (fun c => c ≠ ';')).length
  if i < snippet.length ∧ 50 < i then snippet.take i else snippet

/-- The match loop of `extract_defined_terms` (lines 140-174): normalize the
capture, drop terms shorter than 2 characters, deduplicate case-insensitively
through the `seen_terms` set (first occurrence wins), and build the
`DefinedTerm` records. -/
def edtLoop (article : Article) (category : Str) :
    List (Str × Nat) → List Str → List DefinedTerm
  | [], _ => []
  | (raw, endPos) :: ms, seen =>
    if (normalize_term raw).length < 2 then edtLoop article category ms seen
    else if lower (normalize_term raw) ∈ seen then edtLoop article category ms seen
    else
      { term := normalize_term raw
        celex_id := article.celex_id
        article_number := article.article_number
        definition_snippet := snippetOf article.text endPos
        category := category } ::
        edtLoop article category ms (lower (normalize_term raw) :: seen)

/-- `extract_defined_terms` from src/extraction/entity_extractor.py
(lines 129-174). -/
def extract_defined_terms (article : Article) : List DefinedTerm :=
  if article.text = [] then []
  else edtLoop article (corpusCategory article.celex_id) (findTermMatches article.text) []

/-- The alternation `(?:EC|EU|EEC|Euratom)\)` of `_CELEX_REF_PATTERN`: the
alternatives are tried in pattern order, each required to be followed by the
closing parenthesis (regex backtracking across the alternation).  Returns
the suffix after the parenthesis. -/
def matchInstrumentCode (s : Str) : Option Str :=
  let tryOne : Str → Option Str := fun lit => do
    let r ← ciLit lit s
    match r with
    | c :: cs => if c = ')' then some cs else none
    | [] => none
  match tryOne (str "ec") with
  | some out => some out
  | none =>
    match tryOne (str "eu") with
    | some out => some out
    | none =>
      match tryOne (str "eec") with
      | some out => some out
      | none => tryOne (str "euratom")

/-- Regex `(?:Regulation|Directive|Decision)\s*\((?:EC|EU|EEC|Euratom)\)\s*(?:No\s+)?(\d{1,4})/(\d{4})`,
the mandatory core of `_CELEX_REF_PATTERN` (case-insensitive).  Returns the
captured "number/year" string and the remaining suffix. -/
def matchRefCore (s : Str) : Option (Str × Str) := do
  let r1 ← match ciLit (str "regulation") s with
           | some r => some r
           | none => match ciLit (str "directive") s with
                     | some r => some r
                     | none => ciLit (str "decision") s
  let r2 := r1.dropWhile isSpace
  let r3 ← match r2 with
           | c :: cs => if c = '(' then some cs else none
           | [] => none
  let r5 ← matchInstrumentCode r3
  let r6 := r5.dropWhile isSpace
  let r7 := match (do let r ← ciLit (str "no") r6; wsPlus r) with
            | some r => r
            | none => r6
  let ds := r7.takeWhile Char.isDigit
  guard (1 ≤ ds.length ∧ ds.length ≤ 4)
  let r8 ← match r7.dropWhile Char.isDigit with
           | c :: cs => if c = '/' then some cs else none
           | [] => none
  let ys := (r8.take 4)
  guard (ys.length = 4 ∧ ys.all Char.isDigit)
  pure (ds ++ '/' :: ys, r8.drop 4)

/-- Regex `council\s+`. -/
def matchCouncil (s : Str) : Option Str := do
  let r ← ciLit (str "council") s
  wsPlus r

/-- Regex `and\s+(?:of\s+the\s+)?Council\s+` with backtracking over the
optional `of the`. -/
def matchAndCouncil (s : Str) : Option Str := do
  let r ← ciLit (str "and") s
  let r ← wsPlus r
  match (do let r2 ← ciLit (str "of") r
            let r2 ← wsPlus r2
            let r2 ← ciLit (str "the") r2
            let r2 ← wsPlus r2
            matchCouncil r2) with
  | some out => some out
  | none => matchCouncil r

/-- The optional issuing-body prefix of `_CELEX_REF_PATTERN`:
`Commission\s+` or `European\s+Parliament\s+(?:and\s+(?:of\s+the\s+)?Council\s+)?`. -/
def matchRefPrefix (s : Str) : Option Str :=
  match (do let r ← ciLit (str "commission") s; wsPlus r) with
  | some r => some r
  | none => do
    let r ← ciLit (str "european") s
    let r ← wsPlus r
    let r ← ciLit (str "parliament") r
    let r ← wsPlus r
    match matchAndCouncil r with
    | some out => some out
    | none => some r

/-- Attempt `_CELEX_REF_PATTERN` at the head of `s`: the optional prefix
then the core, falling back to the bare core when the prefixed attempt
fails. -/
def matchRefAt (s : Str) : Option (Str × Str) :=
  match matchRefPrefix s with
  | some r =>
    match matchRefCore r with
    | some out => some out
    | none => matchRefCore s
  | none => matchRefCore s

/-- The `re.finditer(_CELEX_REF_PATTERN, text)` scan: yields
(number/year, start, end) triples. -/
def scanRefs : Nat → Str → Nat → List (Str × Nat × Nat)
  | 0, _, _ => []
  | _ + 1, [], _ => []
  | fuel + 1, c :: rest, pos =>
    match matchRefAt (c :: rest) with
    | some (num, rem) =>
      let fin := pos + ((c :: rest).length - rem.length)
      (num, pos, fin) :: scanRefs fuel rem fin
    | none => scanRefs fuel rest (pos + 1)

/-- All `_CELEX_REF_PATTERN` matches of a text. -/
def findRefMatches (text : Str) : List (Str × Nat × Nat) :=
  scanRefs text.length text 0

/-- The match loop of `extract_cross_references` (lines 183-207):
deduplicate by number/year, capture 30 characters before and 50 after the
match as context. -/
def ecrLoop (article : Article) : List (Str × Nat × Nat) → List Str → List CrossReference
  | [], _ => []
  | (num, s, e) :: ms, seen =>
    if num ∈ seen then ecrLoop article ms seen
    else
      { source_celex := article.celex_id
        source_article := article.article_number
        target_regulation_number := num
        context := (article.text.drop (s - 30)).take ((e + 50) - (s - 30)) }
        :: ecrLoop article ms (num :: seen)

/-- `extract_cross_references` from src/extraction/entity_extractor.py
(lines 177-207). -/
def extract_cross_references (article : Article) : List CrossReference :=
  if article.text = [] then []
  else ecrLoop article (findRefMatches article.text) []

/-- `EntityIndex` dataclass from src/extraction/entity_extractor.py. -/
structure EntityIndex where
  defined_terms : List DefinedTerm := []
  cross_references : List CrossReference := []
deriving Repr, DecidableEq

/-- Python substring containment `needle in hay`. -/
def isSubstring (needle : Str) : Str → Bool
  | [] => needle.isPrefixOf []
  | c :: rest => needle.isPrefixOf (c :: rest) || isSubstring needle rest

/-- The per-article step of `extract_entities` (lines 218-228): defined
terms are extracted only from articles whose lowered title contains
"definition" or "scope"; cross-references from every article. -/
def extractEntitiesStep (idx : EntityIndex) (article : Article) : EntityIndex :=
  let title_lower := lower article.title
  let dts :=
    if isSubstring (str "definition") title_lower || isSubstring (str "scope") title_lower
    then extract_defined_terms article else []
  { defined_terms := idx.defined_terms ++ dts
    cross_references := idx.cross_references ++ extract_cross_references article }

/-- `extract_entities` from src/extraction/entity_extractor.py
(lines 210-230). -/
def extract_entities (regulations : List ParsedRegulation) : EntityIndex :=
  regulations.foldl (fun idx reg => reg.articles.foldl extractEntitiesStep idx) {}

/-- The `term_to_sources` property of `EntityIndex`: fold the defined terms
into an insertion-ordered map term_lower → defining sources (Python dicts
preserve insertion order). -/
def assocAppendDT (l : List (Str × List DefinedTerm)) (k : Str) (v : DefinedTerm) :
    List (Str × List DefinedTerm) :=
  match l with
  | [] => [(k, [v])]
  | (k2, vs) :: rest =>
    if k2 = k then (k2, vs ++ [v]) :: rest else (k2, vs) :: assocAppendDT rest k v

/-- `EntityIndex.term_to_sources` from src/extraction/entity_extractor.py
(lines 91-100). -/
def EntityIndex.term_to_sources (idx : EntityIndex) : List (Str × List DefinedTerm) :=
  idx.defined_terms.foldl (fun acc dt => assocAppendDT acc dt.term_lower dt) []

/-! ## src/retrieval/routing.py -/

/-- `ALWAYS_INCLUDE` from src/retrieval/routing.py.  In the Python it is a
set of two strings; set iteration order is arbitrary, so it is embedded in
the literal's order (no claim depends on the order of the two seeds). -/
def ALWAYS_INCLUDE : List Str := [str "32002R0178", str "32011R1169"]

/-- `CATEGORY_ROUTING` from src/retrieval/routing.py, in source order. -/
def CATEGORY_ROUTING : List (Str × List Str) := [
  (str "novel food", [str "novel_food"]),
  (str "food supplement", [str "food_supplements"]),
  (str "infant formula", [str "food_specific_groups"]),
  (str "food for special medical purposes", [str "food_specific_groups"]),
  (str "organic food", [str "organic"]),
  (str "food additive", [str "food_additives"]),
  (str "flavouring", [str "flavourings"]),
  (str "food enzyme", [str "food_enzymes"]),
  (str "gmo", [str "gmo"]),
  (str "vitamin", [str "fortification", str "food_supplements"]),
  (str "mineral", [str "fortification", str "food_supplements"]),
  (str "health claim", [str "nutrition_health_claims"]),
  (str "nutrition claim", [str "nutrition_health_claims"]),
  (str "food contact material", [str "food_contact_materials"]),
  (str "plastic packaging", [str "food_contact_materials"]),
  (str "allergen", [str "labelling_fic"]),
  (str "nutrition declaration", [str "labelling_fic"]),
  (str "origin labelling", [str "labelling_fic", str "meat_origin"]),
  (str "contaminant", [str "contaminants"]),
  (str "official control", [str "official_controls"])]

/-- `RoutingResult` dataclass from src/retrieval/routing.py; `reasons` is a
Python dict celex_id → list of reasons, embedded as an insertion-ordered
association list. -/
structure RoutingResult where
  celex_ids : List Str := []
  reasons : List (Str × List Str) := []
deriving Repr, DecidableEq

/-- Dictionary lookup in an insertion-ordered association list. -/
def assocFind (l : List (Str × List Str)) (k : Str) : Option (List Str) :=
  match l.find? (fun p => decide (p.1 = k)) with
  | some p => some p.2
  | none => none

/-- Replace the value at an existing key of an association list. -/
def assocSet (l : List (Str × List Str)) (k : Str) (v : List Str) :
    List (Str × List Str) :=
  match l with
  | [] => []
  | (k2, vs) :: rest =>
    if k2 = k then (k2, v) :: rest else (k2, vs) :: assocSet rest k v

/-- `RoutingResult.add` from src/retrieval/routing.py (lines 66-71): first
insertion of a celex id appends it to `celex_ids`; the reason is appended to
its reason list unless already present. -/
def RoutingResult.add (res : RoutingResult) (celex reason : Str) : RoutingResult :=
  match assocFind res.reasons celex with
  | none =>
    { celex_ids := res.celex_ids ++ [celex]
      reasons := res.reasons ++ [(celex, [reason])] }
  | some rs =>
    if reason ∈ rs then res
    else { res with reasons := assocSet res.reasons celex (rs ++ [reason]) }

/-- Add a value to a dict-of-sets entry (the `_category_to_celex`
construction of `RoutingTable.__init__`); Python set membership embedded as
first-seen-ordered duplicate-free lists. -/
def addToSetList (l : List (Str × List Str)) (k v : Str) : List (Str × List Str) :=
  match l with
  | [] => [(k, [v])]
  | (k2, vs) :: rest =>
    if k2 = k then (k2, if v ∈ vs then vs else vs ++ [v]) :: rest
    else (k2, vs) :: addToSetList rest k v

/-- The `_category_to_celex` map built from `CORPUS` in
`RoutingTable.__init__` (lines 86-91). -/
def categoryToCelex : List (Str × List Str) :=
  CORPUS.foldl (fun acc e => addToSetList acc e.2.category e.1) []

/-- Python `self._category_to_celex.get(cat, set())`. -/
def categoryCelexes (cat : Str) : List Str :=
  match assocFind categoryToCelex cat with
  | some l => l
  | none => []

/-- `RoutingTable` from src/retrieval/routing.py: the `_term_to_celex` map
(the `_category_to_celex` map is the constant `categoryToCelex` above, since
`CORPUS` is fixed). -/
structure RoutingTable where
  term_to_celex : List (Str × List Str) := []
deriving Repr

/-- First-seen-order deduplication (a Python set comprehension, with
insertion order standing in for the arbitrary set order). -/
def dedupKeepFirst (l : List Str) : List Str :=
  l.foldl (fun acc x => if x ∈ acc then acc else acc ++ [x]) []

/-- `RoutingTable.__init__` (lines 84-97): build `_term_to_celex` from the
entity index (`{s.celex_id for s in sources}`). -/
def mkRoutingTable (entity_index : Option EntityIndex) : RoutingTable :=
  { term_to_celex :=
      match entity_index with
      | none => []
      | some idx =>
        idx.term_to_sources.map
          (fun p => (p.1, dedupKeepFirst (p.2.map DefinedTerm.celex_id))) }

/-- Python `glue` for the f-string reasons of `route`. -/
def quoteCh : Char := Char.ofNat 34

/-- Strategy 1 of the `route` loop (lines 161-165): the manual
`CATEGORY_ROUTING` mapping, expanded through `_category_to_celex`. -/
def routeStage1 (res : RoutingResult) (term label : Str) : RoutingResult :=
  match CATEGORY_ROUTING.find? (fun p => decide (p.1 = term)) with
  | some p =>
    p.2.foldl (fun r cat =>
      (categoryCelexes cat).foldl (fun r2 celex =>
        r2.add celex
          (label ++ str ": " ++ quoteCh :: term ++ quoteCh :: str " → category " ++ cat)) r)
      res
  | none => res

/-- Strategy 2 of the `route` loop (lines 167-170): exact defined-term
match. -/
def routeStage2 (table : RoutingTable) (res : RoutingResult) (term label : Str) :
    RoutingResult :=
  match table.term_to_celex.find? (fun p => decide (p.1 = term)) with
  | some p =>
    p.2.foldl (fun r celex =>
      r.add celex
        (label ++ str ": " ++ quoteCh :: term ++ quoteCh :: str " defined in this regulation"))
      res
  | none => res

/-- Strategy 3 of the `route` loop (lines 172-180): multi-word sub-phrase
containment in a longer defined term. -/
def routeStage3 (table : RoutingTable) (res : RoutingResult) (term label : Str) :
    RoutingResult :=
  if ' ' ∈ term ∧ 5 < term.length then
    table.term_to_celex.foldl (fun r p =>
      if isSubstring term p.1 && decide (term ≠ p.1) then
        p.2.foldl (fun r2 celex =>
          r2.add celex
            (label ++ str ": " ++ quoteCh :: term ++ quoteCh :: str " in " ++
              quoteCh :: p.1 ++ [quoteCh])) r
      else r) res
  else res

/-- The body of the `for term, source_label in all_terms` loop of `route`
(lines 160-180): the three matching strategies applied to one attribute. -/
def routeTermStep (table : RoutingTable) (res : RoutingResult) (tp : Str × Str) :
    RoutingResult :=
  routeStage3 table (routeStage2 table (routeStage1 res tp.1 tp.2) tp.1 tp.2) tp.1 tp.2

/-- Well-formedness of a routing accumulator: no duplicate document ids, and
the id list and the reason dictionary carry the same key set (this is the
invariant `RoutingResult.add` maintains). -/
def RoutingResult.Wf (res : RoutingResult) : Prop :=
  res.celex_ids.Nodup ∧ ∀ c, c ∈ res.celex_ids ↔ c ∈ res.reasons.map Prod.fst

/-- `RoutingTable.route` from src/retrieval/routing.py (lines 114-182).
Python defaults (empty string / None) correspond to `[]`; `term.lower().strip()`
is `strip (lower term)`. -/
def route (table : RoutingTable) (product_type : Str := []) (ingredients : List Str := [])
    (claims : List Str := []) (packaging : Str := []) (keywords : List Str := []) :
    RoutingResult :=
  let res1 := ALWAYS_INCLUDE.foldl (fun r celex =>
    r.add celex (str "always included (" ++ corpusTitle celex ++ str ")")) {}
  let all_terms : List (Str × Str) :=
    (if product_type ≠ [] then [(strip (lower product_type), str "product type")] else [])
    ++ ingredients.map (fun i => (strip (lower i), str "ingredient"))
    ++ claims.map (fun c => (strip (lower c), str "claim"))
    ++ (if packaging ≠ [] then [(strip (lower packaging), str "packaging")] else [])
    ++ keywords.map (fun k => (strip (lower k), str "keyword"))
  all_terms.foldl (routeTermStep table) res1

/-! ## src/indexing/vector_store.py

The sentence-transformer encoder is an out-of-scope collaborator (spec §1);
embeddings are modeled as integer vectors, preserving the dot-product
ranking structure that `search` operates on.  Of each stored metadata dict,
`search` consults only `metadata.get("celex_id", "")`, so a stored chunk is
embedded as (chunk_id, text, celex_id, embedding) — aligned positionally,
like the parallel `_ids` / `_texts` / `_metadatas` / `_embeddings` arrays. -/

/-- One indexed chunk of the in-memory index of `VectorStore`. -/
structure StoredChunk where
  chunk_id : Str
  text : Str
  celex_id : Str
  embedding : List Int
deriving Repr, DecidableEq

/-- The in-memory index of `VectorStore` (persistence is out of scope of
every claim). -/
structure VectorStore where
  chunks : List StoredChunk := []
deriving Repr

/-- numpy dot product of two aligned vectors. -/
def dot : List Int → List Int → Int
  | x :: xs, y :: ys => x * y + dot xs ys
  | _, _ => 0

/-- The boolean candidate mask of `search` (lines 105-115).  Python
`if celex_ids:` is false both for `None` and for the empty list, so both
yield the all-ones mask. -/
def maskList (store : VectorStore) (celex_ids : Option (List Str)) : List Bool :=
  match celex_ids with
  | some (c :: cs) => store.chunks.map (fun ch => decide (ch.celex_id ∈ c :: cs))
  | _ => store.chunks.map (fun _ => true)

/-- The masked score of candidate `i` (lines 118-121): its dot product with
the query, or `-inf` (`⊥`) where the mask is false. -/
def scoreKey (store : VectorStore) (query : List Int) (mask : List Bool) (i : Nat) :
    WithBot Int :=
  match store.chunks.get? i, mask.getD i false with
  | some c, true => ((dot c.embedding query : Int) : WithBot Int)
  | _, _ => ⊥

/-- Stable ascending insertion of index `i` (arriving after every index
already in the list) into a key-sorted index list. -/
def insertIdxAsc (key : Nat → WithBot Int) (i : Nat) : List Nat → List Nat
  | [] => [i]
  | j :: rest => if key j ≤ key i then j :: insertIdxAsc key i rest else i :: j :: rest

/-- Stable ascending argsort of `0..n-1` by key — the realization of
`np.argsort(scores)` used by `search`.  numpy's default sort is
implementation-defined on ties; for the small arrays where tie behavior is
observable it is an insertion sort, which is exactly this stable realization
(ties keep ascending index order). -/
def argsortAsc (key : Nat → WithBot Int) (n : Nat) : List Nat :=
  (List.range n).foldl (fun acc i => insertIdxAsc key i acc) []

/-- One search result.  The Python result dict carries chunk_id, text,
metadata and score of `self ... [idx]`; the running index `idx` of the output
loop is recorded alongside so that ordering claims can be stated. -/
structure SearchResult where
  idx : Nat
  chunk_id : Str
  text : Str
  celex_id : Str
  score : Int
deriving Repr, DecidableEq

/-- The top-k index selection of `search` (lines 123-126):
`np.argpartition(scores, -k)[-k:]` keeps the k largest (the last k of the
ascending sort; tie choice at the cut is implementation-defined in numpy and
resolved here toward larger index, consistently with the stable sort), then
re-sorting those k ascending and reversing gives descending order.  When
`k = 0`, the Python slice `[-0:]` is the WHOLE array, so all n indices
survive to the output loop. -/
def topIndices (key : Nat → WithBot Int) (n k : Nat) : List Nat :=
  let sorted := argsortAsc key n
  if k = 0 then sorted.reverse else (sorted.drop (n - k)).reverse

/-- The result record built for index `idx` in the output loop of `search`
(lines 128-139): the chunk id, text, metadata document id and score of the
stored chunk at that position (the `none` fallback is unreachable — every
selected index is in range). -/
def mkSearchResult (store : VectorStore) (query : List Int) (i : Nat) : SearchResult :=
  match store.chunks.get? i with
  | some c => { idx := i, chunk_id := c.chunk_id, text := c.text,
                celex_id := c.celex_id, score := dot c.embedding query }
  | none => { idx := i, chunk_id := [], text := [], celex_id := [], score := 0 }

/-- The scoring/selection/output part of `search` (lines 117-141), after the
mask has been built and found non-empty.  The filter is the
`if scores[idx] == -inf: continue` guard of the output loop. -/
def searchCore (store : VectorStore) (query : List Int) (mask : List Bool)
    (n_results : Nat) : List SearchResult :=
  let key := scoreKey store query mask
  let k := min n_results (mask.count true)
  let top := topIndices key store.chunks.length k
  (top.filter (fun i => !(decide (key i = ⊥)))).map (mkSearchResult store query)

/-- `VectorStore.search` from src/indexing/vector_store.py (lines 81-141).
The empty-index early return is lines 97-98; the `if not mask.any()` early
return (lines 112-113) only runs in Python when a non-empty filter was
supplied, but with no filter the mask is all ones over a non-empty index, so
checking it unconditionally is equivalent. -/
def VectorStore.search (store : VectorStore) (query : List Int)
    (celex_ids : Option (List Str)) (n_results : Nat := 10) : List SearchResult :=
  if store.chunks.length = 0 then []
  else
    let mask := maskList store celex_ids
    if mask.any id = false then []
    else searchCore store query mask n_results

/-- The number of eligible candidates of a search: the number of indexed
chunks passing the filter mask (`int(mask.sum())` in the Python). -/
def eligCount (store : VectorStore) (celex_ids : Option (List Str)) : Nat :=
  (maskList store celex_ids).count true

/-- The strict ordering in which the stable ascending argsort lays out
indices: by key, ties by original index. -/
def idxLt (key : Nat → WithBot Int) (i j : Nat) : Prop :=
  key i < key j ∨ (key i = key j ∧ i < j)

/-! ## Concrete instances used by counterexamples and witnesses -/

/-- An 1800-character paragraph. -/
def c6para1 : Str := List.replicate 1800 'a'

/-- A 200-character paragraph. -/
def c6para2 : Str := List.replicate 200 'b'

/-- The article of the spec scenario behind C6: body of exactly 2001
characters with a paragraph break after character 1800. -/
def c6article : Article :=
  { celex_id := str "32015R2283", article_number := 1, title := str "Test",
    text := c6para1 ++ '\n' :: c6para2 }

/-- A Definitions-style article (used to probe the defined-term extractor);
its body contains one quoted-term-means pattern. -/
def c4art (n : Nat) : Article :=
  { celex_id := str "32015R2283", article_number := n, title := str "Definitions",
    text := str "\"food\" means any substance" }

/-- A parsed document with two Definitions articles that define the same
term. -/
def c4reg : ParsedRegulation :=
  { celex_id := str "32015R2283", title := str "Test Regulation",
    articles := [c4art 2, c4art 3] }

/-- A well-formed legacy-format document. -/
def c5good : RawDoc :=
  { hasEliContainer := false, hasTiArt := false, hasTexteOnly := true,
    pars := [str "Test Regulation", str "Article 1", str "Scope",
             str "This regulation applies to food."] }

/-- A document with none of the three structural markers. -/
def c5bad : RawDoc :=
  { hasEliContainer := false, hasTiArt := false, hasTexteOnly := false }

/-- A two-chunk index whose chunks tie on score against the query `[1]`. -/
def c2tieStore : VectorStore :=
  { chunks := [
      { chunk_id := str "A_art1", text := str "t0", celex_id := str "A", embedding := [1] },
      { chunk_id := str "B_art1", text := str "t1", celex_id := str "B", embedding := [1] }] }

/-- A three-chunk index with distinct scores against the query `[1]`. -/
def c2store : VectorStore :=
  { chunks := [
      { chunk_id := str "A_art1", text := str "t0", celex_id := str "A", embedding := [1] },
      { chunk_id := str "B_art1", text := str "t1", celex_id := str "B", embedding := [3] },
      { chunk_id := str "A_art2", text := str "t2", celex_id := str "A", embedding := [2] }] }

/-- A single-chunk index (document id "A"). -/
def c8store : VectorStore :=
  { chunks := [
      { chunk_id := str "A_art1", text := str "t0", celex_id := str "A", embedding := [1] }] }

/-- A small article whose body is two normalized paragraphs. -/
def wArticle : Article :=
  { celex_id := str "32002R0178", article_number := 1, title := str "Aim",
    text := str "ab\ncd" }

/-- An article with whitespace-only body. -/
def wEmptyArticle : Article :=
  { celex_id := str "32002R0178", article_number := 99, title := str "Final provisions",
    text := str "   " }

/-- An article whose single paragraph exceeds a small maxChars of 3. -/
def wLongParaArticle : Article :=
  { celex_id := str "32002R0178", article_number := 2, title := str "Scope",
    text := str "abcdefgh" }

/-- Paragraphs of a minimal legacy-format document: one heading, a subtitle
and one body paragraph. -/
def w10pars : List Str := [str "Article 1", str "Scope", str "Body."]

/-- The article the legacy scan produces from `w10pars`. -/
def w10art : Article :=
  { celex_id := str "X", article_number := 1, title := str "Scope",
    text := str "Body." }

/-! ## Lemmas about the string primitives -/

theorem splitNl_ne_nil (s : Str) : splitNl s ≠ [] := by
  cases s with
  | nil => simp [splitNl]
  | cons c rest =>
    simp only [splitNl]
    split
    · simp
    · cases h : splitNl rest <;> simp

theorem joinNl_cons_of_ne_nil (p : Str) {L : List Str} (h : L ≠ []) :
    joinNl (p :: L) = p ++ '\n' :: joinNl L := by
  cases L with
  | nil => exact absurd rfl h
  | cons q t => rfl

theorem joinNl_splitNl (s : Str) : joinNl (splitNl s) = s := by
  induction s with
  | nil => rfl
  | cons c rest ih =>
    simp only [splitNl]
    split
    · rename_i hc
      subst hc
      rw [joinNl_cons_of_ne_nil _ (splitNl_ne_nil rest), ih]
      rfl
    · cases h : splitNl rest with
      | nil => exact absurd h (splitNl_ne_nil rest)
      | cons p ps =>
        rw [h] at ih
        cases ps with
        | nil =>
          simp only [joinNl] at ih ⊢
          exact congrArg (fun t => c :: t) ih
        | cons q qs =>
          rw [joinNl_cons_of_ne_nil _ (by simp)] at ih
          show joinNl ((c :: p) :: q :: qs) = c :: rest
          rw [joinNl_cons_of_ne_nil _ (by simp), List.cons_append, ih]

theorem mem_joinNl_of_mem {L : List Str} {p : Str} {c : Char}
    (hp : p ∈ L) (hc : c ∈ p) : c ∈ joinNl L := by
  induction L with
  | nil => cases hp
  | cons q t ih =>
    cases t with
    | nil =>
      simp only [List.mem_singleton] at hp
      simpa [joinNl, hp] using hc
    | cons r s =>
      rw [joinNl_cons_of_ne_nil _ (by simp)]
      rcases List.mem_cons.mp hp with h | h
      · subst h
        exact List.mem_append_left _ hc
      · exact List.mem_append_right _ (List.mem_cons_of_mem _ (ih h))

theorem mem_of_mem_splitNl {s p : Str} {c : Char} (hp : p ∈ splitNl s) (hc : c ∈ p) :
    c ∈ s := by
  have := mem_joinNl_of_mem hp hc
  rwa [joinNl_splitNl] at this

theorem strip_eq_nil_iff {s : Str} : strip s = [] ↔ ∀ c ∈ s, isSpace c := by
  unfold strip
  rw [List.reverse_eq_nil_iff, List.dropWhile_eq_nil_iff]
  constructor
  · intro h c hc
    by_cases hsp : isSpace c
    · exact hsp
    · exfalso
      have hc2 : c ∈ s.dropWhile isSpace := by
        have hsplit := List.takeWhile_append_dropWhile (p := isSpace) (l := s)
        rcases List.mem_append.mp (hsplit ▸ hc) with h1 | h1
        · exact absurd (List.mem_takeWhile_imp h1) hsp
        · exact h1
      exact hsp (h c (List.mem_reverse.mpr hc2))
  · intro h c hc
    exact h c ((List.dropWhile_sublist _ (l := s)).subset (List.mem_reverse.mp hc))

theorem strip_ne_nil_of_mem {s : Str} {c : Char} (hc : c ∈ s) (hsp : isSpace c = false) :
    strip s ≠ [] := by
  intro h
  have := strip_eq_nil_iff.mp h c hc
  simp [hsp] at this

theorem splitNl_cons_ne (c : Char) (s : Str) (hc : c ≠ '\n') :
    splitNl (c :: s) = (c :: (splitNl s).headD []) :: (splitNl s).tail := by
  simp only [splitNl, hc, if_false]
  cases h : splitNl s with
  | nil => exact absurd h (splitNl_ne_nil s)
  | cons p ps => rfl

theorem splitNl_cons_nl (s : Str) : splitNl ('\n' :: s) = [] :: splitNl s := by
  simp only [splitNl]
  exact if_pos trivial

theorem splitNl_append_of_no_nl {xs : Str} (ys : Str) (h : ∀ c ∈ xs, c ≠ '\n') :
    splitNl (xs ++ ys) =
      (xs ++ (splitNl ys).headD []) :: (splitNl ys).tail := by
  induction xs with
  | nil =>
    cases hy : splitNl ys with
    | nil => exact absurd hy (splitNl_ne_nil ys)
    | cons p ps => simp [hy]
  | cons c rest ih =>
    have hc : c ≠ '\n' := h c (by simp)
    have ih2 := ih (fun d hd => h d (List.mem_cons_of_mem _ hd))
    show splitNl (c :: (rest ++ ys)) = _
    rw [splitNl_cons_ne c _ hc, ih2]
    rfl

theorem splitNl_of_no_nl {s : Str} (h : ∀ c ∈ s, c ≠ '\n') : splitNl s = [s] := by
  have := @splitNl_append_of_no_nl s [] h
  simpa [splitNl] using this

theorem length_le_joinNl_of_mem {g : List Str} {x : Str} (hx : x ∈ g) :
    x.length ≤ (joinNl g).length := by
  induction g with
  | nil => cases hx
  | cons q t ih =>
    cases t with
    | nil =>
      simp only [List.mem_singleton] at hx
      simp [joinNl, hx]
    | cons r s =>
      rw [joinNl_cons_of_ne_nil _ (by simp)]
      rcases List.mem_cons.mp hx with h | h
      · subst h
        simp
      · have := ih h
        simp only [List.length_append, List.length_cons]
        omega

theorem joinNl_append_of_ne_nil {a b : List Str} (ha : a ≠ []) (hb : b ≠ []) :
    joinNl (a ++ b) = joinNl a ++ '\n' :: joinNl b := by
  induction a with
  | nil => exact absurd rfl ha
  | cons q t ih =>
    cases t with
    | nil =>
      cases b with
      | nil => exact absurd rfl hb
      | cons r s =>
        show joinNl (q :: r :: s) = joinNl [q] ++ '\n' :: joinNl (r :: s)
        rw [joinNl_cons_of_ne_nil _ (by simp)]
        rfl
    | cons r s =>
      rw [List.cons_append, joinNl_cons_of_ne_nil _ (by simp),
        joinNl_cons_of_ne_nil _ (by simp), ih (by simp) ]
      simp

theorem joinNl_flatten {gs : List (List Str)} (h : ∀ g ∈ gs, g ≠ []) :
    joinNl (gs.map joinNl) = joinNl gs.flatten := by
  induction gs with
  | nil => rfl
  | cons g t ih =>
    cases t with
    | nil => simp [joinNl]
    | cons g2 t2 =>
      have hg : g ≠ [] := h g (by simp)
      have hflat : (g2 :: t2).flatten ≠ [] := by
        have hg2 : g2 ≠ [] := h g2 (by simp)
        cases g2 with
        | nil => exact absurd rfl hg2
        | cons x xs => simp
      rw [List.map_cons, joinNl_cons_of_ne_nil _ (by simp), List.flatten_cons,
        joinNl_append_of_ne_nil hg hflat, ih (fun g hgm => h g (List.mem_cons_of_mem _ hgm))]

/-! ## The sub-chunking loop partitions the cleaned paragraphs -/

theorem cleanedParas_cons (p : Str) (rest : List Str) :
    cleanedParas (p :: rest) =
      (if strip p = [] then [] else [strip p]) ++ cleanedParas rest := by
  simp only [cleanedParas, List.map_cons, List.filter_cons]
  by_cases h : strip p = [] <;> simp [h]

theorem chunkStep_inv {m : Nat} {st : List Str × List Str × Nat} {done : List Str}
    (p : Str) (h : ChunkInv st done) :
    ChunkInv (chunkStep m st p) (done ++ if strip p = [] then [] else [strip p]) := by
  obtain ⟨gs, h1, h2, h3, h4⟩ := h
  by_cases hp : strip p = []
  · refine ⟨gs, ?_, h2, ?_, ?_⟩ <;> simp [chunkStep, hp, h1, h3, h4]
  · rw [if_neg hp]
    by_cases hcl : m < st.2.2 + (strip p).length ∧ MIN_CHUNK_CHARS ≤ st.2.2
    · have hcur : st.2.1 ≠ [] := by
        intro hc
        rw [hc] at h4
        simp at h4
        have := hcl.2
        rw [h4] at this
        simp [MIN_CHUNK_CHARS] at this
      refine ⟨gs ++ [st.2.1], ?_, ?_, ?_, ?_⟩
      · simp only [chunkStep, hp, if_neg hp, if_pos hcl]
        simp only [List.flatten_append, List.flatten_cons, List.flatten_nil,
          List.append_nil, List.append_assoc]
        simpa using congrArg (fun l => l ++ [strip p]) h1
      · intro g hg
        rcases List.mem_append.mp hg with h | h
        · exact h2 g h
        · simp only [List.mem_singleton] at h
          subst h
          exact hcur
      · simp only [chunkStep, hp, if_neg hp, if_pos hcl]
        simp [h3]
      · simp only [chunkStep, hp, if_neg hp, if_pos hcl]
        simp
    · refine ⟨gs, ?_, h2, ?_, ?_⟩
      · simp only [chunkStep, hp, if_neg hp, if_neg hcl]
        simp [← List.append_assoc, h1]
      · simp only [chunkStep, hp, if_neg hp, if_neg hcl]
        simpa using h3
      · simp only [chunkStep, hp, if_neg hp, if_neg hcl]
        simp [h4]

theorem foldl_chunkStep_inv (m : Nat) (paras : List Str) :
    ∀ st done, ChunkInv st done →
      ChunkInv (paras.foldl (chunkStep m) st) (done ++ cleanedParas paras) := by
  induction paras with
  | nil =>
    intro st done h
    simpa [cleanedParas] using h
  | cons p rest ih =>
    intro st done h
    have h2 := chunkStep_inv (m := m) p h
    have h3 := ih _ _ h2
    rw [cleanedParas_cons]
    simpa [List.append_assoc] using h3

theorem getLastD_concat' {α : Type} (l : List α) (a d : α) :
    (l ++ [a]).getLastD d = a := by
  simp [List.getLastD_eq_getLast?]

/-- Master structural lemma for the sub-chunking pass: the produced chunk
texts are the newline-joins of a partition of the cleaned paragraph list
into non-empty consecutive groups. -/
theorem buildChunks_groups (m : Nat) (paras : List Str) :
    ∃ gs : List (List Str), gs.flatten = cleanedParas paras ∧ (∀ g ∈ gs, g ≠ []) ∧
      buildChunks m paras = gs.map joinNl := by
  have h0 : ChunkInv ([], [], 0) [] := ⟨[], by simp, by simp, rfl, by simp⟩
  obtain ⟨gs, h1, h2, h3, h4⟩ := foldl_chunkStep_inv m paras ([], [], 0) [] h0
  rw [List.nil_append] at h1
  unfold buildChunks mergeTrailing
  by_cases hcur : (paras.foldl (chunkStep m) ([], [], 0)).2.1 = []
  · rw [if_neg (by simpa using hcur)]
    refine ⟨gs, ?_, h2, h3⟩
    rw [hcur, List.append_nil] at h1
    exact h1
  · rw [if_pos hcur]
    by_cases hm : 0 < (paras.foldl (chunkStep m) ([], [], 0)).1.length ∧
        (paras.foldl (chunkStep m) ([], [], 0)).2.2 < MIN_CHUNK_CHARS
    · rw [if_pos hm]
      have hgs : gs ≠ [] := by
        intro hnil
        rw [hnil] at h3
        rw [h3] at hm
        simp at hm
      rcases gs.eq_nil_or_concat with hnil | ⟨gs0, g, hconcat⟩
      · exact absurd hnil hgs
      · rw [List.concat_eq_append] at hconcat
        subst hconcat
        refine ⟨gs0 ++ [g ++ (paras.foldl (chunkStep m) ([], [], 0)).2.1], ?_, ?_, ?_⟩
        · simp only [List.flatten_append, List.flatten_cons, List.flatten_nil,
            List.append_nil] at h1 ⊢
          simpa [List.append_assoc] using h1
        · intro x hx
          rcases List.mem_append.mp hx with h | h
          · exact h2 x (List.mem_append_left _ h)
          · simp only [List.mem_singleton] at h
            subst h
            intro hnil
            rcases List.append_eq_nil.mp hnil with ⟨_, hc⟩
            exact hcur hc
        · rw [h3, List.map_append, List.map_singleton, List.dropLast_concat,
            getLastD_concat', List.map_append, List.map_singleton,
            joinNl_append_of_ne_nil (h2 g (by simp)) hcur]
    · rw [if_neg hm]
      refine ⟨gs ++ [(paras.foldl (chunkStep m) ([], [], 0)).2.1], ?_, ?_, ?_⟩
      · simpa using h1
      · intro x hx
        rcases List.mem_append.mp hx with h | h
        · exact h2 x h
        · simp only [List.mem_singleton] at h
          subst h
          exact hcur
      · rw [h3, List.map_append, List.map_singleton]

/-! ## Further string and chunking helpers -/

theorem dropWhile_isSpace_eq_self {s : Str} (h : ∀ c ∈ s, isSpace c = false) :
    s.dropWhile isSpace = s := by
  cases s with
  | nil => rfl
  | cons c t => simp [List.dropWhile_cons, h c (by simp)]

theorem strip_eq_self_of_no_space {s : Str} (h : ∀ c ∈ s, isSpace c = false) :
    strip s = s := by
  unfold strip
  rw [dropWhile_isSpace_eq_self h,
    dropWhile_isSpace_eq_self (fun c hc => h c (List.mem_reverse.mp hc)),
    List.reverse_reverse]

theorem exists_nonspace_of_strip_ne_nil {s : Str} (h : strip s ≠ []) :
    ∃ c ∈ s, isSpace c = false := by
  by_contra hall
  push_neg at hall
  refine h (strip_eq_nil_iff.mpr (fun c hc => ?_))
  have := hall c hc
  simpa using this

theorem mem_splitNl_of_mem {s : Str} {c : Char} (hc : c ∈ s) (hnl : c ≠ '\n') :
    ∃ p ∈ splitNl s, c ∈ p := by
  induction s with
  | nil => cases hc
  | cons c0 rest ih =>
    by_cases h0 : c0 = '\n'
    · subst h0
      have hcr : c ∈ rest := by
        rcases List.mem_cons.mp hc with h | h
        · exact absurd h hnl
        · exact h
      obtain ⟨p, hp, hcp⟩ := ih hcr
      refine ⟨p, ?_, hcp⟩
      simp only [splitNl, if_pos rfl]
      exact List.mem_cons_of_mem _ hp
    · rw [splitNl_cons_ne c0 rest h0]
      rcases List.mem_cons.mp hc with h | h
      · subst h
        exact ⟨c :: (splitNl rest).headD [], by simp, by simp⟩
      · obtain ⟨p, hp, hcp⟩ := ih h
        cases hsp : splitNl rest with
        | nil => exact absurd hsp (splitNl_ne_nil rest)
        | cons q qs =>
          rw [hsp] at hp
          rcases List.mem_cons.mp hp with h2 | h2
          · subst h2
            exact ⟨c0 :: p, by simp, List.mem_cons_of_mem _ hcp⟩
          · exact ⟨p, List.mem_cons_of_mem _ h2, hcp⟩

theorem cleanedParas_eq_self {l : List Str} (h : ∀ p ∈ l, p ≠ [] ∧ strip p = p) :
    cleanedParas l = l := by
  unfold cleanedParas
  have h1 : l.map strip = l := by
    rw [show l.map strip = l.map id from List.map_congr_left (fun p hp => (h p hp).2),
      List.map_id]
  rw [h1]
  apply List.filter_eq_self.mpr
  intro p hp
  have := (h p hp).1
  cases p with
  | nil => exact absurd rfl this
  | cons x xs => rfl

theorem mem_cleanedParas {l : List Str} {p : Str} (hp : p ∈ l) (hs : strip p ≠ []) :
    strip p ∈ cleanedParas l := by
  unfold cleanedParas
  apply List.mem_filter.mpr
  refine ⟨List.mem_map_of_mem _ hp, ?_⟩
  cases hsp : strip p with
  | nil => exact absurd hsp hs
  | cons x xs => rfl

theorem numberChunks_map_text (a : Article) (total : Nat) :
    ∀ i ts, (numberChunks a total i ts).map ArticleChunk.text = ts := by
  intro i ts
  induction ts generalizing i with
  | nil => rfl
  | cons t rest ih => simp [numberChunks, ArticleChunk.text, ih]

theorem numberChunks_length (a : Article) (total : Nat) :
    ∀ i ts, (numberChunks a total i ts).length = ts.length := by
  intro i ts
  induction ts generalizing i with
  | nil => rfl
  | cons t rest ih => simp [numberChunks, ih]

theorem strip_text_ne_nil_of_para {a : Article} {p : Str} (hp : p ∈ splitNl a.text)
    (hps : strip p ≠ []) : strip a.text ≠ [] := by
  obtain ⟨c, hcp, hcs⟩ := exists_nonspace_of_strip_ne_nil hps
  exact strip_ne_nil_of_mem (mem_of_mem_splitNl hp hcp) hcs

/-! ## Claim theorems: chunking (C1, C6, C7, C9) -/

/-- C1: for every article whose body text is in the parser-normalized form —
a newline-join of paragraphs that are each non-empty and already stripped
(the spec requires all three parsers to produce whitespace-normalized,
newline-joined body text) — concatenating the texts of the chunks returned
by `chunk_article`, joined in chunk order, reconstructs the original body
(hence its paragraphs, without loss or reordering). -/
theorem chunk_article_reconstructs (a : Article) (m : Nat)
    (hnorm : ∀ p ∈ splitNl a.text, p ≠ [] ∧ strip p = p) :
    joinNl ((chunk_article a m).map ArticleChunk.text) = a.text := by
  have hmem : (splitNl a.text).headD [] ∈ splitNl a.text := by
    cases h : splitNl a.text with
    | nil => exact absurd h (splitNl_ne_nil _)
    | cons p ps => simp
  have hhead := hnorm _ hmem
  have hstriphead : strip ((splitNl a.text).headD []) ≠ [] := by
    rw [hhead.2]
    exact hhead.1
  have hstrip : strip a.text ≠ [] := strip_text_ne_nil_of_para hmem hstriphead
  unfold chunk_article
  rw [if_neg hstrip]
  by_cases hlen : a.text.length ≤ m
  · rw [if_pos hlen]
    rfl
  · rw [if_neg hlen]
    obtain ⟨gs, hflat, hne, heq⟩ := buildChunks_groups m (splitNl a.text)
    rw [cleanedParas_eq_self hnorm] at hflat
    show joinNl ((numberChunks a (buildChunks m (splitNl a.text)).length 0
      (buildChunks m (splitNl a.text))).map ArticleChunk.text) = a.text
    rw [numberChunks_map_text, heq, joinNl_flatten hne, hflat, joinNl_splitNl]

/-- C1 witness: the normalization hypothesis holds of a concrete two-
paragraph article and the reconstruction follows by applying the theorem
there. -/
theorem chunk_article_reconstructs_witness :
    (∀ p ∈ splitNl wArticle.text, p ≠ [] ∧ strip p = p) ∧
    joinNl ((chunk_article wArticle 2000).map ArticleChunk.text) = wArticle.text :=
  ⟨by decide, chunk_article_reconstructs wArticle 2000 (by decide)⟩

/-- C7: `chunk_article` never fails and always returns at least one chunk;
a whitespace-only body yields exactly one chunk whose text is the article
title or the placeholder; a body of length at most maxChars yields exactly
one whole-article chunk with chunk_index 0 and total_chunks 1. -/
theorem chunk_article_policy (a : Article) (m : Nat) :
    1 ≤ (chunk_article a m).length ∧
    (strip a.text = [] →
      chunk_article a m =
        [{ celex_id := a.celex_id, article_number := a.article_number,
           article_title := a.title,
           text := if a.title = [] then str "(empty article)" else a.title,
           chapter := a.chapter, section_ := a.section_,
           chunk_index := 0, total_chunks := 1 }]) ∧
    (strip a.text ≠ [] → a.text.length ≤ m →
      chunk_article a m =
        [{ celex_id := a.celex_id, article_number := a.article_number,
           article_title := a.title, text := a.text,
           chapter := a.chapter, section_ := a.section_,
           chunk_index := 0, total_chunks := 1 }]) := by
  refine ⟨?_, ?_, ?_⟩
  · by_cases h1 : strip a.text = []
    · simp [chunk_article, h1]
    · by_cases h2 : a.text.length ≤ m
      · simp [chunk_article, h1, h2]
      · unfold chunk_article
        rw [if_neg h1, if_neg h2]
        show 1 ≤ (numberChunks a (buildChunks m (splitNl a.text)).length 0
          (buildChunks m (splitNl a.text))).length
        rw [numberChunks_length]
        obtain ⟨c, hc, hcs⟩ := exists_nonspace_of_strip_ne_nil h1
        have hnl : c ≠ '\n' := by
          intro h
          subst h
          simp [isSpace] at hcs
        obtain ⟨p, hp, hcp⟩ := mem_splitNl_of_mem hc hnl
        have hps : strip p ≠ [] := strip_ne_nil_of_mem hcp hcs
        obtain ⟨gs, hflat, hne, heq⟩ := buildChunks_groups m (splitNl a.text)
        have hclean := mem_cleanedParas hp hps
        rw [← hflat] at hclean
        rw [heq]
        rcases gs with _ | ⟨g, gt⟩
        · simp at hclean
        · simp
  · intro h1
    simp [chunk_article, h1]
  · intro h1 h2
    simp [chunk_article, h1, h2]

/-- C7 witness: the three conjuncts evaluated at concrete articles — a
whitespace-only article and a short article — discharging each hypothesis. -/
theorem chunk_article_policy_witness :
    1 ≤ (chunk_article wEmptyArticle 2000).length ∧
    (strip wEmptyArticle.text = [] ∧
      chunk_article wEmptyArticle 2000 =
        [{ celex_id := wEmptyArticle.celex_id, article_number := 99,
           article_title := wEmptyArticle.title, text := wEmptyArticle.title,
           chapter := [], section_ := [], chunk_index := 0, total_chunks := 1 }]) ∧
    (strip wArticle.text ≠ [] ∧ wArticle.text.length ≤ 2000 ∧
      chunk_article wArticle 2000 =
        [{ celex_id := wArticle.celex_id, article_number := 1,
           article_title := wArticle.title, text := wArticle.text,
           chapter := [], section_ := [], chunk_index := 0, total_chunks := 1 }]) := by
  refine ⟨(chunk_article_policy wEmptyArticle 2000).1, ⟨by decide, ?_⟩, ⟨by decide, by decide, ?_⟩⟩
  · have h := (chunk_article_policy wEmptyArticle 2000).2.1 (by decide)
    rw [h]
    decide
  · have h := (chunk_article_policy wArticle 2000).2.2 (by decide) (by decide)
    rw [h]
    rfl

/-- C9: `chunk_article` does not guarantee the maxChars bound: when the body
exceeds maxChars and some newline-delimited paragraph exceeds maxChars after
stripping, the output contains a chunk whose text is longer than maxChars
(splitting only happens at paragraph boundaries). -/
theorem chunk_article_oversize (a : Article) (m : Nat) (p : Str)
    (hlong : m < a.text.length) (hp : p ∈ splitNl a.text)
    (hplen : m < (strip p).length) :
    ∃ c ∈ chunk_article a m, m < c.text.length := by
  have hps : strip p ≠ [] := by
    intro h
    rw [h] at hplen
    simp at hplen
  have hstrip : strip a.text ≠ [] := strip_text_ne_nil_of_para hp hps
  unfold chunk_article
  rw [if_neg hstrip, if_neg (by omega)]
  obtain ⟨gs, hflat, hne, heq⟩ := buildChunks_groups m (splitNl a.text)
  have hclean := mem_cleanedParas hp hps
  rw [← hflat] at hclean
  obtain ⟨g, hg, hpg⟩ := List.mem_flatten.mp hclean
  have hglen := length_le_joinNl_of_mem hpg
  have hmem : joinNl g ∈ buildChunks m (splitNl a.text) := by
    rw [heq]
    exact List.mem_map_of_mem _ hg
  have hmem2 : joinNl g ∈ (numberChunks a (buildChunks m (splitNl a.text)).length 0
      (buildChunks m (splitNl a.text))).map ArticleChunk.text := by
    rw [numberChunks_map_text]
    exact hmem
  obtain ⟨c, hc1, hc2⟩ := List.mem_map.mp hmem2
  refine ⟨c, hc1, ?_⟩
  have : c.text = joinNl g := hc2
  rw [this]
  omega

/-- C9 witness: a single 8-character paragraph with maxChars 3 produces an
oversized chunk. -/
theorem chunk_article_oversize_witness :
    3 < wLongParaArticle.text.length ∧
    (str "abcdefgh") ∈ splitNl wLongParaArticle.text ∧
    3 < (strip (str "abcdefgh")).length ∧
    ∃ c ∈ chunk_article wLongParaArticle 3, 3 < c.text.length :=
  ⟨by decide, by decide, by decide,
    chunk_article_oversize wLongParaArticle 3 (str "abcdefgh")
      (by decide) (by decide) (by decide)⟩

/-! ## Claim C6: evaluation of the 2001-character scenario -/

theorem c6para1_length : c6para1.length = 1800 := by
  show (List.replicate 1800 'a').length = 1800
  rw [List.length_replicate]

theorem c6para2_length : c6para2.length = 200 := by
  show (List.replicate 200 'b').length = 200
  rw [List.length_replicate]

theorem c6para1_ne_nil : c6para1 ≠ [] := by
  intro h
  have := congrArg List.length h
  rw [c6para1_length] at this
  simp at this

theorem c6para2_ne_nil : c6para2 ≠ [] := by
  intro h
  have := congrArg List.length h
  rw [c6para2_length] at this
  simp at this

theorem c6text_length : c6article.text.length = 2001 := by
  show (c6para1 ++ '\n' :: c6para2).length = 2001
  rw [List.length_append, List.length_cons, c6para1_length, c6para2_length]

/-- Generic evaluation of the C6 scenario over symbolic paragraphs: a body
`p1 ++ "\n" ++ p2` with `|p1| = 1800` and `|p2| = 200` (2001 characters in
total) stays in one chunk under maxChars 2000, because the accumulation
compares `|p1| + |p2| = 2000`, not the 2001-character body length. -/
theorem chunk_article_c6_shape (p1 p2 : Str)
    (hs1 : strip p1 = p1) (hs2 : strip p2 = p2)
    (hlen1 : p1.length = 1800) (hlen2 : p2.length = 200)
    (hnl1 : ∀ c ∈ p1, c ≠ '\n') (hnl2 : ∀ c ∈ p2, c ≠ '\n')
    (a : Article) (ha : a.text = p1 ++ '\n' :: p2) :
    chunk_article a 2000 =
      [{ celex_id := a.celex_id, article_number := a.article_number,
         article_title := a.title, text := p1 ++ '\n' :: p2,
         chapter := a.chapter, section_ := a.section_,
         chunk_index := 0, total_chunks := 1 }] := by
  have hne1 : p1 ≠ [] := by
    intro h
    rw [h] at hlen1
    simp at hlen1
  have hne2 : p2 ≠ [] := by
    intro h
    rw [h] at hlen2
    simp at hlen2
  have hsplit : splitNl a.text = [p1, p2] := by
    rw [ha, splitNl_append_of_no_nl ('\n' :: p2) hnl1, splitNl_cons_nl,
      splitNl_of_no_nl hnl2]
    show (p1 ++ []) :: [p2] = [p1, p2]
    rw [List.append_nil]
  have hstrip : strip a.text ≠ [] := by
    obtain ⟨c, hc, hcs⟩ := exists_nonspace_of_strip_ne_nil (s := p1) (by
      rw [hs1]; exact hne1)
    refine strip_ne_nil_of_mem ?_ hcs
    rw [ha]
    exact List.mem_append_left _ hc
  have hlen : a.text.length = 2001 := by
    rw [ha, List.length_append, List.length_cons, hlen1, hlen2]
  have e1 : chunkStep 2000 ([], [], 0) p1 = ([], [p1], 1800) := by
    show (if strip p1 = [] then (([] : List Str), ([] : List Str), (0 : Nat))
          else if 2000 < 0 + (strip p1).length ∧ MIN_CHUNK_CHARS ≤ 0 then
            ([] ++ [joinNl []], [strip p1], (strip p1).length)
          else (([] : List Str), [] ++ [strip p1], 0 + (strip p1).length)) =
        ([], [p1], 1800)
    rw [hs1, hlen1, if_neg hne1, if_neg (by norm_num [MIN_CHUNK_CHARS])]
    simp
  have e2 : chunkStep 2000 ([], [p1], 1800) p2 = ([], [p1, p2], 2000) := by
    show (if strip p2 = [] then (([] : List Str), [p1], (1800 : Nat))
          else if 2000 < 1800 + (strip p2).length ∧ MIN_CHUNK_CHARS ≤ 1800 then
            ([] ++ [joinNl [p1]], [strip p2], (strip p2).length)
          else (([] : List Str), [p1] ++ [strip p2], 1800 + (strip p2).length)) =
        ([], [p1, p2], 2000)
    rw [hs2, hlen2, if_neg hne2, if_neg (by norm_num [MIN_CHUNK_CHARS])]
    simp
  have e3 : buildChunks 2000 (splitNl a.text) = [p1 ++ '\n' :: p2] := by
    rw [hsplit]
    unfold buildChunks
    rw [List.foldl_cons, e1, List.foldl_cons, e2, List.foldl_nil]
    show (if ([p1, p2] : List Str) ≠ [] then
            if 0 < ([] : List Str).length ∧ 2000 < MIN_CHUNK_CHARS then
              ([] : List Str).dropLast ++
                [([] : List Str).getLastD [] ++ '\n' :: joinNl [p1, p2]]
            else ([] : List Str) ++ [joinNl [p1, p2]]
          else ([] : List Str)) = [p1 ++ '\n' :: p2]
    rw [if_pos (List.cons_ne_nil _ _), if_neg (by norm_num)]
    rfl
  unfold chunk_article
  rw [if_neg hstrip, if_neg (by rw [hlen]; omega)]
  show numberChunks a (buildChunks 2000 (splitNl a.text)).length 0
    (buildChunks 2000 (splitNl a.text)) = _
  rw [e3]
  rfl

theorem c6_chunks_eval :
    chunk_article c6article 2000 =
      [{ celex_id := c6article.celex_id, article_number := 1,
         article_title := c6article.title, text := c6para1 ++ '\n' :: c6para2,
         chapter := [], section_ := [], chunk_index := 0, total_chunks := 1 }] :=
  chunk_article_c6_shape c6para1 c6para2
    (strip_eq_self_of_no_space (fun c hc => by rw [List.eq_of_mem_replicate hc]; rfl))
    (strip_eq_self_of_no_space (fun c hc => by rw [List.eq_of_mem_replicate hc]; rfl))
    c6para1_length c6para2_length
    (fun c hc => by rw [List.eq_of_mem_replicate hc]; decide)
    (fun c hc => by rw [List.eq_of_mem_replicate hc]; decide)
    c6article rfl

/-- C6 counterexample: the body is exactly 2001 characters with a paragraph
break after character 1800, yet `chunk_article` with maxChars 2000 does NOT
produce two chunks (the loop compares the 2000-character sum of paragraph
lengths — newline separators are not counted — so everything stays in one
chunk). -/
theorem c6_counterexample :
    c6article.text = c6para1 ++ '\n' :: c6para2 ∧
    c6article.text.length = 2001 ∧ c6para1.length = 1800 ∧
    ¬((chunk_article c6article 2000).length = 2) := by
  refine ⟨rfl, c6text_length, c6para1_length, ?_⟩
  rw [c6_chunks_eval]
  simp

/-- C6 amended: the 2001-character article with a break after character 1800
produces exactly ONE chunk under maxChars 2000 — the whole body — and that
chunk is not smaller than the minimum chunk threshold. -/
theorem c6_amended :
    (chunk_article c6article 2000).map ArticleChunk.text = [c6article.text] ∧
    ∀ c ∈ chunk_article c6article 2000, MIN_CHUNK_CHARS ≤ c.char_count := by
  rw [c6_chunks_eval]
  refine ⟨rfl, ?_⟩
  intro c hc
  simp only [List.mem_singleton] at hc
  subst hc
  show MIN_CHUNK_CHARS ≤ (c6para1 ++ '\n' :: c6para2).length
  rw [List.length_append, List.length_cons, c6para1_length, c6para2_length]
  norm_num [MIN_CHUNK_CHARS]

/-! ## Claim C10: the legacy parser never populates chapter/section -/

/-- C10: every Article produced by the legacy-format parser has empty
chapter and empty section fields — chapter/section context is never
populated for legacy-format documents. -/
theorem legacy_articles_no_chapter_section (pars : List Str) (celex : Str) :
    ∀ a ∈ (parse_html_legacy pars celex).articles,
      a.chapter = [] ∧ a.section_ = [] := by
  show ∀ a ∈ legacyScan celex pars, _
  suffices h : ∀ (n : Nat) (l : List Str), l.length ≤ n →
      ∀ a ∈ legacyScan celex l, a.chapter = [] ∧ a.section_ = [] from
    h pars.length pars (Nat.le_refl _)
  intro n
  induction n with
  | zero =>
    intro l hlen a ha
    have : l = [] := List.eq_nil_of_length_eq_zero (Nat.le_zero.mp hlen)
    subst this
    simp [legacyScan] at ha
  | succ n ih =>
    intro l hlen a ha
    cases l with
    | nil => simp [legacyScan] at ha
    | cons p rest =>
      rw [legacyScan] at ha
      simp only [List.length_cons] at hlen
      cases hmatch : parseArticleHeading p with
      | none =>
        rw [hmatch] at ha
        exact ih rest (by omega) a ha
      | some k =>
        rw [hmatch] at ha
        rcases List.mem_cons.mp ha with h | h
        · subst h
          exact ⟨rfl, rfl⟩
        · exact ih (legacyRest rest) (by have := legacyRest_length rest; omega) a h

/-- Witness for C10: the concrete article produced by the legacy parser on a
minimal legacy document is in its article list and carries empty chapter and
section fields. -/
theorem legacy_articles_no_chapter_section_witness :
    w10art ∈ (parse_html_legacy w10pars (str "X")).articles ∧
      w10art.chapter = [] ∧ w10art.section_ = [] := by
  have h0 : legacyScan (str "X") [] = [] := by rw [legacyScan]
  have h1 : legacyScan (str "X") w10pars = [w10art] := by
    show legacyScan (str "X") (str "Article 1" :: [str "Scope", str "Body."]) = _
    rw [legacyScan]
    have hp : parseArticleHeading (str "Article 1") = some 1 := by decide
    rw [hp]
    have hr : legacyRest [str "Scope", str "Body."] = [] := by decide
    rw [hr, h0]
    decide
  have hmem : w10art ∈ (parse_html_legacy w10pars (str "X")).articles := by
    show w10art ∈ legacyScan (str "X") w10pars
    rw [h1]
    exact List.mem_singleton.mpr rfl
  exact ⟨hmem, legacy_articles_no_chapter_section w10pars (str "X") w10art hmem⟩

/-! ## Claim C5: parse_corpus aborts on the first unrecognized document -/

/-- C5: `parse_corpus` has no error handling, so the `ValueError` raised by
`detect_format` on a single unrecognized document propagates and ABORTS the
whole batch: with the batch [unrecognized, well-formed], the result is the
error and the well-formed document — which parses fine on its own — is never
parsed.  This contradicts the spec's requirement that a single
`UnrecognizedFormat` failure "must not abort processing of other documents
in a batch". -/
theorem parse_corpus_aborts_on_unrecognized :
    parse_corpus [(str "32099R0001", c5bad), (str "32099R0002", c5good)] =
      .error (str "Unknown EUR-Lex HTML format: no eli-container, ti-art, or TexteOnly div found")
    ∧ parse_corpus [(str "32099R0002", c5good)] =
      .ok [parse_html_legacy c5good.pars (str "32099R0002")] := by
  constructor
  · rfl
  · rfl

/-! ## Claim C3: routing -/

theorem assocFind_eq_none_iff (l : List (Str × List Str)) (k : Str) :
    assocFind l k = none ↔ k ∉ l.map Prod.fst := by
  constructor
  · intro h hk
    obtain ⟨p, hp, hpk⟩ := List.mem_map.mp hk
    unfold assocFind at h
    cases hfind : l.find? (fun p => decide (p.1 = k)) with
    | none =>
      have := List.find?_eq_none.mp hfind p hp
      simp [hpk] at this
    | some q =>
      rw [hfind] at h
      simp at h
  · intro hk
    unfold assocFind
    cases hfind : l.find? (fun p => decide (p.1 = k)) with
    | none => rfl
    | some q =>
      exfalso
      have h1 := List.find?_some hfind
      have h2 := List.mem_of_find?_eq_some hfind
      simp only [decide_eq_true_eq] at h1
      exact hk (List.mem_map.mpr ⟨q, h2, h1⟩)

theorem assocSet_map_fst (l : List (Str × List Str)) (k : Str) (v : List Str) :
    (assocSet l k v).map Prod.fst = l.map Prod.fst := by
  induction l with
  | nil => rfl
  | cons p rest ih =>
    obtain ⟨k2, vs⟩ := p
    unfold assocSet
    by_cases h : k2 = k
    · rw [if_pos h]
      rfl
    · rw [if_neg h]
      simp only [List.map_cons, ih]

theorem add_wf (res : RoutingResult) (c r : Str) (h : res.Wf) :
    (res.add c r).Wf := by
  obtain ⟨h1, h2⟩ := h
  unfold RoutingResult.add
  cases hfind : assocFind res.reasons c with
  | none =>
    have hc : c ∉ res.celex_ids := by
      rw [h2 c]
      exact (assocFind_eq_none_iff _ _).mp hfind
    constructor
    · simp [List.nodup_append, h1, hc]
    · intro x
      simp [h2 x]
  | some rs =>
    show (if r ∈ rs then res
      else { celex_ids := res.celex_ids,
             reasons := assocSet res.reasons c (rs ++ [r]) }).Wf
    by_cases hr : r ∈ rs
    · rw [if_pos hr]
      exact ⟨h1, h2⟩
    · rw [if_neg hr]
      refine ⟨h1, fun x => ?_⟩
      rw [h2 x]
      simp [assocSet_map_fst]

theorem foldl_add_wf {β : Type} {step : RoutingResult → β → RoutingResult}
    (hstep : ∀ r x, r.Wf → (step r x).Wf) :
    ∀ (l : List β) (res : RoutingResult), res.Wf → (l.foldl step res).Wf := by
  intro l
  induction l with
  | nil =>
    intro res h
    exact h
  | cons x xs ih =>
    intro res h
    exact ih _ (hstep res x h)

theorem routeStage1_wf (res : RoutingResult) (term label : Str) (h : res.Wf) :
    (routeStage1 res term label).Wf := by
  unfold routeStage1
  cases CATEGORY_ROUTING.find? (fun p => decide (p.1 = term)) with
  | none => exact h
  | some p =>
    exact foldl_add_wf
      (fun r cat hr => foldl_add_wf (fun r2 celex hr2 => add_wf _ _ _ hr2) _ _ hr) _ _ h

theorem routeStage2_wf (table : RoutingTable) (res : RoutingResult) (term label : Str)
    (h : res.Wf) : (routeStage2 table res term label).Wf := by
  unfold routeStage2
  cases table.term_to_celex.find? (fun p => decide (p.1 = term)) with
  | none => exact h
  | some p =>
    exact foldl_add_wf (fun r celex hr => add_wf _ _ _ hr) _ _ h

theorem routeStage3_wf (table : RoutingTable) (res : RoutingResult) (term label : Str)
    (h : res.Wf) : (routeStage3 table res term label).Wf := by
  unfold routeStage3
  split
  · refine foldl_add_wf (fun r p hr => ?_) _ _ h
    split
    · exact foldl_add_wf (fun r2 celex hr2 => add_wf _ _ _ hr2) _ _ hr
    · exact hr
  · exact h

theorem route_wf (table : RoutingTable) (product_type : Str)
    (ingredients claims2 : List Str) (packaging : Str) (keywords : List Str) :
    (route table product_type ingredients claims2 packaging keywords).Wf := by
  unfold route
  refine foldl_add_wf (fun r tp hr =>
    routeStage3_wf _ _ _ _ (routeStage2_wf _ _ _ _ (routeStage1_wf _ _ _ hr))) _ _ ?_
  refine foldl_add_wf (fun r celex hr => add_wf _ _ _ hr) _ _ ?_
  exact ⟨List.nodup_nil, fun c => by simp⟩

/-- C3: for every combination of route() inputs the returned celex_ids list
contains no duplicates, and route() called with no attributes returns
exactly the always-included document set, each annotated with an "always
included" reason. -/
theorem route_nodup_and_seed (table : RoutingTable) (product_type : Str)
    (ingredients claims2 : List Str) (packaging : Str) (keywords : List Str) :
    (route table product_type ingredients claims2 packaging keywords).celex_ids.Nodup ∧
    (route table [] [] [] [] []).celex_ids = ALWAYS_INCLUDE ∧
    (route table [] [] [] [] []).reasons =
      [(str "32002R0178", [str "always included (General Food Law Regulation)"]),
       (str "32011R1169",
        [str "always included (Food Information to Consumers (FIC) Regulation)"])] :=
  ⟨(route_wf table product_type ingredients claims2 packaging keywords).1, rfl, rfl⟩

/-! ## Claim C4: defined-term deduplication -/

theorem edtLoop_key_props (a : Article) (cat : Str) :
    ∀ (ms : List (Str × Nat)) (seen : List Str),
      ((edtLoop a cat ms seen).map (fun d => lower d.term)).Nodup ∧
      ∀ d ∈ edtLoop a cat ms seen, lower d.term ∉ seen := by
  intro ms
  induction ms with
  | nil =>
    intro seen
    exact ⟨List.nodup_nil, by simp [edtLoop]⟩
  | cons m rest ih =>
    intro seen
    obtain ⟨raw, endPos⟩ := m
    rw [edtLoop]
    by_cases h1 : (normalize_term raw).length < 2
    · rw [if_pos h1]
      exact ih seen
    · rw [if_neg h1]
      by_cases h2 : lower (normalize_term raw) ∈ seen
      · rw [if_pos h2]
        exact ih seen
      · rw [if_neg h2]
        obtain ⟨ihn, ihs⟩ := ih (lower (normalize_term raw) :: seen)
        constructor
        · rw [List.map_cons]
          refine List.Pairwise.cons (fun k hk => ?_) ihn
          obtain ⟨d, hd, hdk⟩ := List.mem_map.mp hk
          have := ihs d hd
          intro hcontra
          rw [← hdk] at hcontra
          exact this (by rw [← hcontra]; exact List.mem_cons_self _ _)
        · intro d hd
          rcases List.mem_cons.mp hd with h | h
          · subst h
            exact h2
          · have := ihs d h
            intro hmem
            exact this (List.mem_cons_of_mem _ hmem)

/-- C4 amended: within a single article scan, at most one DefinedTerm per
case-insensitively normalized term is retained (the `seen_terms` key is the
lower-cased normalized term), first occurrence winning. -/
theorem extract_defined_terms_dedup (article : Article) :
    ((extract_defined_terms article).map (fun d => lower d.term)).Nodup := by
  unfold extract_defined_terms
  split
  · exact List.nodup_nil
  · exact (edtLoop_key_props article _ _ []).1

/-- C4 counterexample: a document with two Definitions articles that each
define "food" yields an EntityIndex with TWO DefinedTerms for the same
(document_id, lower-cased normalized term) pair — deduplication is only
per-article, not per-document. -/
theorem extract_entities_dup_pair :
    ((extract_entities [c4reg]).defined_terms.map
      (fun d => (d.celex_id, lower d.term))) =
      [(str "32015R2283", str "food"), (str "32015R2283", str "food")] ∧
    ¬(((extract_entities [c4reg]).defined_terms.map
      (fun d => (d.celex_id, lower d.term))).Nodup) := by
  constructor
  · decide
  · decide

/-! ## Claim C8: empty-result cases of search -/

theorem list_any_id_false {l : List Bool} (h : ∀ b ∈ l, b = false) :
    l.any id = false := by
  induction l with
  | nil => rfl
  | cons b rest ih =>
    rw [List.any_cons]
    rw [h b (by simp), ih (fun x hx => h x (List.mem_cons_of_mem _ hx))]
    rfl

/-- C8 amended: searching an empty index returns an empty list (with or
without a filter), and a supplied NON-EMPTY document filter that matches
zero indexed chunks returns an empty list.  (An empty-list filter is falsy
in Python and is treated as no filter at all — see the counterexample.) -/
theorem search_empty_cases (store : VectorStore) (q : List Int) (f : List Str)
    (n : Nat) (hne : f ≠ []) (hmatch : ∀ ch ∈ store.chunks, ch.celex_id ∉ f) :
    VectorStore.search { chunks := [] } q (some f) n = [] ∧
    VectorStore.search { chunks := [] } q none n = [] ∧
    store.search q (some f) n = [] := by
  refine ⟨rfl, rfl, ?_⟩
  unfold VectorStore.search
  by_cases hlen : store.chunks.length = 0
  · rw [if_pos hlen]
  · rw [if_neg hlen]
    cases f with
    | nil => exact absurd rfl hne
    | cons c cs =>
      show (if (maskList store (some (c :: cs))).any id = false then []
        else searchCore store q (maskList store (some (c :: cs))) n) = []
      rw [if_pos ?_]
      apply list_any_id_false
      intro b hb
      unfold maskList at hb
      obtain ⟨ch, hch, hchb⟩ := List.mem_map.mp hb
      rw [← hchb]
      simpa using hmatch ch hch

/-- C8 witness: the amended theorem applied to a one-chunk store and the
non-matching filter ["Z"]. -/
theorem search_empty_cases_witness :
    ((str "Z") :: [] ≠ ([] : List Str)) ∧
    (∀ ch ∈ c8store.chunks, ch.celex_id ∉ [str "Z"]) ∧
    (VectorStore.search { chunks := [] } [1] (some [str "Z"]) 10 = [] ∧
     VectorStore.search { chunks := [] } [1] none 10 = [] ∧
     c8store.search [1] (some [str "Z"]) 10 = []) :=
  ⟨by decide, by decide, search_empty_cases c8store [1] [str "Z"] 10 (by decide) (by decide)⟩

/-- C8 counterexample: an empty-list filter matches zero indexed chunks but
is falsy in Python (`if celex_ids:`), so search treats it as NO filter and
returns results instead of an empty list. -/
theorem search_empty_filter_counterexample :
    (∀ ch ∈ c8store.chunks, ch.celex_id ∉ ([] : List Str)) ∧
    ¬(c8store.search [1] (some []) 10 = []) := by
  constructor
  · intro ch hch
    simp
  · decide

/-! ## Claim C2: the selection pipeline of search -/

theorem insertIdxAsc_perm (key : Nat → WithBot Int) (i : Nat) (l : List Nat) :
    List.Perm (insertIdxAsc key i l) (i :: l) := by
  induction l with
  | nil => exact List.Perm.refl _
  | cons j rest ih =>
    unfold insertIdxAsc
    split
    · exact (ih.cons j).trans (List.Perm.swap i j rest)
    · exact List.Perm.refl _

theorem insertIdxAsc_pairwise (key : Nat → WithBot Int) (i : Nat) (l : List Nat)
    (hl : l.Pairwise (idxLt key)) (hb : ∀ j ∈ l, j < i) :
    (insertIdxAsc key i l).Pairwise (idxLt key) := by
  induction l with
  | nil => simp [insertIdxAsc]
  | cons j rest ih =>
    rw [List.pairwise_cons] at hl
    obtain ⟨hj, hrest⟩ := hl
    unfold insertIdxAsc
    split
    · rename_i hle
      rw [List.pairwise_cons]
      constructor
      · intro x hx
        have hx2 := (insertIdxAsc_perm key i rest).mem_iff.mp hx
        rcases List.mem_cons.mp hx2 with h | h
        · subst h
          rcases lt_or_eq_of_le hle with h' | h'
          · exact Or.inl h'
          · exact Or.inr ⟨h', hb j (by simp)⟩
        · exact hj x h
      · exact ih hrest (fun x hx => hb x (List.mem_cons_of_mem _ hx))
    · rename_i hgt
      push_neg at hgt
      rw [List.pairwise_cons]
      constructor
      · intro x hx
        rcases List.mem_cons.mp hx with h | h
        · subst h
          exact Or.inl hgt
        · rcases hj x h with h' | h'
          · exact Or.inl (lt_trans hgt h')
          · exact Or.inl (lt_of_lt_of_le hgt (le_of_eq h'.1))
      · exact List.Pairwise.cons hj hrest

theorem argsortAsc_succ (key : Nat → WithBot Int) (n : Nat) :
    argsortAsc key (n + 1) = insertIdxAsc key n (argsortAsc key n) := by
  unfold argsortAsc
  rw [List.range_succ, List.foldl_append, List.foldl_cons, List.foldl_nil]

theorem argsortAsc_perm (key : Nat → WithBot Int) (n : Nat) :
    List.Perm (argsortAsc key n) (List.range n) := by
  induction n with
  | zero => exact List.Perm.refl _
  | succ n ih =>
    rw [argsortAsc_succ, List.range_succ]
    exact ((insertIdxAsc_perm key n _).trans (ih.cons n)).trans
      (List.perm_append_singleton n (List.range n)).symm

theorem argsortAsc_mem_lt (key : Nat → WithBot Int) (n : Nat) :
    ∀ i ∈ argsortAsc key n, i < n :=
  fun _ hi => List.mem_range.mp ((argsortAsc_perm key n).mem_iff.mp hi)

theorem argsortAsc_pairwise (key : Nat → WithBot Int) (n : Nat) :
    (argsortAsc key n).Pairwise (idxLt key) := by
  induction n with
  | zero => simp [argsortAsc]
  | succ n ih =>
    rw [argsortAsc_succ]
    exact insertIdxAsc_pairwise key n _ ih (argsortAsc_mem_lt key n)

theorem argsortAsc_length (key : Nat → WithBot Int) (n : Nat) :
    (argsortAsc key n).length = n :=
  (argsortAsc_perm key n).length_eq.trans (List.length_range n)

theorem countP_range_mask (mask : List Bool) :
    (List.range mask.length).countP (fun i => mask.getD i false) = mask.count true := by
  induction mask with
  | nil => rfl
  | cons b ms ih =>
    rw [List.length_cons, List.range_succ_eq_map, List.countP_cons, List.countP_map,
      List.count_cons]
    have h1 : List.countP ((fun i => (b :: ms).getD i false) ∘ Nat.succ) (List.range ms.length)
        = List.countP (fun i => ms.getD i false) (List.range ms.length) := by
      apply List.countP_congr
      intro a _
      rfl
    rw [h1, ih]
    cases b <;> simp

/-- In a key-sorted index list, everything after the `⊥`-keyed prefix has a
non-`⊥` key. -/
theorem dropWhile_bot_ne_bot (key : Nat → WithBot Int) :
    ∀ (l : List Nat), l.Pairwise (idxLt key) →
      ∀ x ∈ l.dropWhile (fun i => decide (key i = ⊥)), key x ≠ ⊥ := by
  intro l
  induction l with
  | nil =>
    intro _ x hx
    simp [List.dropWhile] at hx
  | cons j rest ih =>
    intro hp x hx
    rw [List.pairwise_cons] at hp
    obtain ⟨hj, hrest⟩ := hp
    rw [List.dropWhile_cons] at hx
    by_cases hbot : key j = ⊥
    · rw [if_pos (by simpa using hbot)] at hx
      exact ih hrest x hx
    · rw [if_neg (by simpa using hbot)] at hx
      rcases List.mem_cons.mp hx with h | h
      · subst h
        exact hbot
      · intro hxbot
        rcases hj x h with h' | h'
        · rw [hxbot] at h'
          exact absurd h' (by simp)
        · exact hbot (h'.1.trans hxbot)

theorem searchCore_spec (store : VectorStore) (q : List Int) (mask : List Bool)
    (n_results : Nat) (hmlen : mask.length = store.chunks.length)
    (hn : 1 ≤ n_results) (he : 1 ≤ mask.count true) :
    (searchCore store q mask n_results).length = min n_results (mask.count true) ∧
    (searchCore store q mask n_results).Pairwise (fun r1 r2 =>
      r2.score < r1.score ∨ (r2.score = r1.score ∧ r2.idx < r1.idx)) ∧
    (∀ r ∈ searchCore store q mask n_results, ∃ c, store.chunks.get? r.idx = some c ∧
      mask.getD r.idx false = true ∧ r.score = dot c.embedding q ∧
      r.chunk_id = c.chunk_id ∧ r.text = c.text ∧ r.celex_id = c.celex_id) ∧
    (∀ i, i < store.chunks.length → mask.getD i false = true →
      (∀ r ∈ searchCore store q mask n_results, r.idx ≠ i) →
      ∀ r ∈ searchCore store q mask n_results,
        ∃ c, store.chunks.get? i = some c ∧ dot c.embedding q ≤ r.score) := by
  set key := scoreKey store q mask with hkeydef
  set n := store.chunks.length with hndef
  set e := mask.count true with hedef
  set k := min n_results e with hkdef
  have hkey_bot : ∀ i, key i ≠ ⊥ ↔ (i < n ∧ mask.getD i false = true) := by
    intro i
    rw [hkeydef]
    unfold scoreKey
    cases hget : store.chunks.get? i with
    | none =>
      rw [List.get?_eq_none] at hget
      constructor
      · intro h
        exact absurd rfl h
      · intro h
        omega
    | some c =>
      have hi : i < n := by
        by_contra hcon
        rw [List.get?_eq_none.mpr (by omega)] at hget
        cases hget
      cases hm : mask.getD i false
      · simp [hi]
      · simp [hi]
  have hkey_eq : ∀ i, i < n → mask.getD i false = true →
      ∃ c, store.chunks.get? i = some c ∧
        key i = ((dot c.embedding q : Int) : WithBot Int) := by
    intro i hi hm
    cases hget : store.chunks.get? i with
    | none =>
      rw [List.get?_eq_none] at hget
      omega
    | some c =>
      refine ⟨c, rfl, ?_⟩
      rw [hkeydef]
      unfold scoreKey
      rw [hget, hm]
  have hmk : ∀ x, x < n → mask.getD x false = true →
      ∃ c, store.chunks.get? x = some c ∧
        key x = ((dot c.embedding q : Int) : WithBot Int) ∧
        mkSearchResult store q x =
          { idx := x, chunk_id := c.chunk_id, text := c.text,
            celex_id := c.celex_id, score := dot c.embedding q } := by
    intro x hx hm
    obtain ⟨c, hget, hkeyx⟩ := hkey_eq x hx hm
    refine ⟨c, hget, hkeyx, ?_⟩
    unfold mkSearchResult
    rw [hget]
  have hout : searchCore store q mask n_results =
      ((topIndices key n k).filter (fun i => !(decide (key i = ⊥)))).map
        (mkSearchResult store q) := rfl
  have hperm := argsortAsc_perm key n
  have hpair := argsortAsc_pairwise key n
  have hslen := argsortAsc_length key n
  have hcount : (argsortAsc key n).countP (fun i => !(decide (key i = ⊥))) = e := by
    rw [hperm.countP_eq]
    have hcong : ∀ i ∈ List.range n,
        ((!(decide (key i = ⊥))) = true ↔ mask.getD i false = true) := by
      intro i hi
      have hi2 := List.mem_range.mp hi
      by_cases hm : mask.getD i false = true
      · have hne := (hkey_bot i).mpr ⟨hi2, hm⟩
        rw [hm]
        simp [hne]
      · have hbot : key i = ⊥ := by
          by_contra hne
          exact hm ((hkey_bot i).mp hne).2
        have hmf : mask.getD i false = false := by
          cases hval : mask.getD i false
          · rfl
          · exact absurd hval hm
        rw [hmf, hbot]
        simp
    rw [List.countP_congr hcong, ← hmlen]
    exact countP_range_mask mask
  have hBG := List.takeWhile_append_dropWhile
    (p := fun i => decide (key i = ⊥)) (l := argsortAsc key n)
  have hGne : ∀ x ∈ (argsortAsc key n).dropWhile (fun i => decide (key i = ⊥)),
      key x ≠ ⊥ := dropWhile_bot_ne_bot key _ hpair
  have hGlen : ((argsortAsc key n).dropWhile (fun i => decide (key i = ⊥))).length = e := by
    have h1 : ((argsortAsc key n).dropWhile (fun i => decide (key i = ⊥))).countP
        (fun i => !(decide (key i = ⊥))) =
        ((argsortAsc key n).dropWhile (fun i => decide (key i = ⊥))).length :=
      List.countP_eq_length.mpr (fun a ha => by simp [hGne a ha])
    have h2 : ((argsortAsc key n).takeWhile (fun i => decide (key i = ⊥))).countP
        (fun i => !(decide (key i = ⊥))) = 0 := by
      apply List.countP_eq_zero.mpr
      intro a ha
      have := List.mem_takeWhile_imp ha
      simpa using this
    have h3 := congrArg (List.countP (fun i => !(decide (key i = ⊥)))) hBG
    rw [List.countP_append, h1, h2, hcount] at h3
    omega
  have hBlen : ((argsortAsc key n).takeWhile (fun i => decide (key i = ⊥))).length
      = n - e := by
    have h3 := congrArg List.length hBG
    rw [List.length_append, hslen, hGlen] at h3
    omega
  have he_le_n : e ≤ n := le_of_le_of_eq (List.count_le_length _ _) hmlen
  have hk_le_e : k ≤ e := min_le_right _ _
  have hk1 : 1 ≤ k := le_min hn he
  have htop : topIndices key n k =
      (((argsortAsc key n).dropWhile (fun i => decide (key i = ⊥))).drop (e - k)).reverse := by
    unfold topIndices
    rw [if_neg (by omega)]
    congr 1
    have hnk : n - k =
        ((argsortAsc key n).takeWhile (fun i => decide (key i = ⊥))).length + (e - k) := by
      rw [hBlen]
      omega
    conv_lhs => rw [← hBG]
    rw [hnk, List.drop_append]
  have htopmem : ∀ x ∈ topIndices key n k, key x ≠ ⊥ := by
    rw [htop]
    intro x hx
    exact hGne x ((List.drop_sublist _ _).subset (List.mem_reverse.mp hx))
  have hfilter : (topIndices key n k).filter (fun i => !(decide (key i = ⊥)))
      = topIndices key n k :=
    List.filter_eq_self.mpr (fun a ha => by simp [htopmem a ha])
  have htoplen : (topIndices key n k).length = k := by
    rw [htop, List.length_reverse, List.length_drop, hGlen]
    omega
  have htop_in : ∀ x ∈ topIndices key n k, x < n ∧ mask.getD x false = true :=
    fun x hx => (hkey_bot x).mp (htopmem x hx)
  have hGpair : ((argsortAsc key n).dropWhile (fun i => decide (key i = ⊥))).Pairwise
      (idxLt key) := hpair.sublist (List.dropWhile_sublist _)
  have htoppair : (topIndices key n k).Pairwise (flip (idxLt key)) := by
    rw [htop, List.pairwise_reverse]
    exact (hGpair.sublist (List.drop_sublist _ _)).imp (fun h => h)
  refine ⟨?_, ?_, ?_, ?_⟩
  · rw [hout, hfilter, List.length_map, htoplen]
  · rw [hout, hfilter]
    rw [List.pairwise_map]
    refine List.Pairwise.imp_of_mem ?_ htoppair
    intro a b ha hb hab
    obtain ⟨han, ham⟩ := htop_in a ha
    obtain ⟨hbn, hbm⟩ := htop_in b hb
    obtain ⟨ca, _, hka, hmka⟩ := hmk a han ham
    obtain ⟨cb, _, hkb, hmkb⟩ := hmk b hbn hbm
    rw [hmka, hmkb]
    rcases hab with h | h
    · left
      rw [hkb, hka] at h
      exact WithBot.coe_lt_coe.mp h
    · right
      rw [hkb, hka] at h
      exact ⟨WithBot.coe_eq_coe.mp h.1, h.2⟩
  · rw [hout, hfilter]
    intro r hr
    obtain ⟨i, hi_top, hi_eq⟩ := List.mem_map.mp hr
    obtain ⟨hi_n, hi_m⟩ := htop_in i hi_top
    obtain ⟨c, hget, _, hmki⟩ := hmk i hi_n hi_m
    rw [hmki] at hi_eq
    rw [← hi_eq]
    exact ⟨c, hget, hi_m, rfl, rfl, rfl, rfl⟩
  · intro i hi hm hnot r hr
    rw [hout, hfilter] at hr hnot
    obtain ⟨ci, hgeti, hkeyi, hmki⟩ := hmk i hi hm
    refine ⟨ci, hgeti, ?_⟩
    have hiG : i ∈ (argsortAsc key n).dropWhile (fun x => decide (key x = ⊥)) := by
      have hisort : i ∈ argsortAsc key n :=
        hperm.mem_iff.mpr (List.mem_range.mpr hi)
      rw [← hBG] at hisort
      rcases List.mem_append.mp hisort with h | h
      · exfalso
        have := List.mem_takeWhile_imp h
        simp only [decide_eq_true_eq] at this
        rw [this] at hkeyi
        exact absurd hkeyi.symm (by simp)
      · exact h
    have hi_take : i ∈ ((argsortAsc key n).dropWhile (fun x => decide (key x = ⊥))).take
        (e - k) := by
      rw [← List.take_append_drop (e - k)
        ((argsortAsc key n).dropWhile (fun x => decide (key x = ⊥)))] at hiG
      rcases List.mem_append.mp hiG with h | h
      · exact h
      · exfalso
        have hmem : mkSearchResult store q i ∈
            (topIndices key n k).map (mkSearchResult store q) := by
          rw [htop]
          exact List.mem_map_of_mem _ (List.mem_reverse.mpr h)
        have := hnot _ hmem
        rw [hmki] at this
        exact this rfl
    obtain ⟨j, hj_top, hj_eq⟩ := List.mem_map.mp hr
    obtain ⟨hj_n, hj_m⟩ := htop_in j hj_top
    obtain ⟨cj, hgetj, hkeyj, hmkj⟩ := hmk j hj_n hj_m
    have hjdrop : j ∈ ((argsortAsc key n).dropWhile (fun x => decide (key x = ⊥))).drop
        (e - k) := by
      rw [htop] at hj_top
      exact List.mem_reverse.mp hj_top
    have hij : idxLt key i j := by
      have hp2 := hGpair
      rw [← List.take_append_drop (e - k)
        ((argsortAsc key n).dropWhile (fun x => decide (key x = ⊥)))] at hp2
      exact (List.pairwise_append.mp hp2).2.2 i hi_take j hjdrop
    rw [hmkj] at hj_eq
    rw [← hj_eq]
    show dot ci.embedding q ≤ dot cj.embedding q
    rcases hij with h | h
    · rw [hkeyi, hkeyj] at h
      exact le_of_lt (WithBot.coe_lt_coe.mp h)
    · rw [hkeyi, hkeyj] at h
      exact le_of_eq (WithBot.coe_eq_coe.mp h.1)

theorem maskList_length (store : VectorStore) (f : Option (List Str)) :
    (maskList store f).length = store.chunks.length := by
  unfold maskList
  cases f with
  | none => simp
  | some l => cases l <;> simp

/-- C2 amended: for every indexed corpus, query, optional document filter
and requested count of at least 1, `search` scores each eligible candidate
by dot product and returns min(n_results, eligible-count) results sorted by
descending score with ties broken by DESCENDING original index order (the
ascending stable argsort is reversed), every returned candidate eligible,
and every eligible candidate left out scoring no higher than any returned
one.  (For n_results = 0 the `[-0:]` slice selects the whole array — see the
counterexample.) -/
theorem search_spec (store : VectorStore) (q : List Int) (f : Option (List Str))
    (n_results : Nat) (hn : 1 ≤ n_results) :
    (store.search q f n_results).length = min n_results (eligCount store f) ∧
    (store.search q f n_results).Pairwise (fun r1 r2 =>
      r2.score < r1.score ∨ (r2.score = r1.score ∧ r2.idx < r1.idx)) ∧
    (∀ r ∈ store.search q f n_results, ∃ c, store.chunks.get? r.idx = some c ∧
      (maskList store f).getD r.idx false = true ∧ r.score = dot c.embedding q ∧
      r.chunk_id = c.chunk_id ∧ r.text = c.text ∧ r.celex_id = c.celex_id) ∧
    (∀ i, i < store.chunks.length → (maskList store f).getD i false = true →
      (∀ r ∈ store.search q f n_results, r.idx ≠ i) →
      ∀ r ∈ store.search q f n_results,
        ∃ c, store.chunks.get? i = some c ∧ dot c.embedding q ≤ r.score) := by
  have hsearch : store.search q f n_results =
      (if store.chunks.length = 0 then []
       else if (maskList store f).any id = false then []
       else searchCore store q (maskList store f) n_results) := rfl
  by_cases h0 : store.chunks.length = 0
  · rw [hsearch, if_pos h0]
    have hmask : maskList store f = [] :=
      List.eq_nil_of_length_eq_zero ((maskList_length store f).trans h0)
    refine ⟨?_, by simp, by simp, ?_⟩
    · rw [eligCount, hmask]
      simp
    · intro i hi
      omega
  · rw [hsearch, if_neg h0]
    by_cases hany : (maskList store f).any id = false
    · rw [if_pos hany]
      have hcount : eligCount store f = 0 := by
        rw [eligCount]
        apply List.count_eq_zero.mpr
        intro hmem
        have htrue : (maskList store f).any id = true :=
          List.any_eq_true.mpr ⟨true, hmem, rfl⟩
        rw [htrue] at hany
        cases hany
      refine ⟨?_, by simp, by simp, ?_⟩
      · rw [hcount]
        simp
      · intro i _ _ _ r hr
        simp at hr
    · rw [if_neg hany]
      have hc1 : 1 ≤ (maskList store f).count true := by
        have hany2 : (maskList store f).any id = true := by
          cases h : (maskList store f).any id
          · exact absurd h hany
          · rfl
        rw [List.any_eq_true] at hany2
        obtain ⟨b, hb, hbt⟩ := hany2
        have hb2 : b = true := hbt
        subst hb2
        by_contra hcon
        push_neg at hcon
        have hz : (maskList store f).count true = 0 := by omega
        exact (List.count_eq_zero.mp hz) hb
      exact searchCore_spec store q (maskList store f) n_results
        (maskList_length store f) hn hc1

/-- C2 counterexample: two candidates that tie on score come back in
REVERSE original index order (index 1 before index 0), contradicting the
claimed ties-by-original-index order; and a requested count of 0 returns
every candidate (the Python slice `[-0:]` is the whole array) instead of
min(0, eligible) = 0 results. -/
theorem search_counterexample :
    ((c2tieStore.search [1] none 10).map (fun r => (r.idx, r.score)) =
      [(1, 1), (0, 1)]) ∧
    ((c8store.search [1] none 0).length = 1) := by
  constructor
  · decide
  · decide

/-- C2 witness: the amended specification applied to a concrete three-chunk
index with distinct scores, requested count 2. -/
theorem search_spec_witness :
    (1 ≤ 2) ∧
    ((c2store.search [1] none 2).length = min 2 (eligCount c2store none) ∧
     (c2store.search [1] none 2).Pairwise (fun r1 r2 =>
       r2.score < r1.score ∨ (r2.score = r1.score ∧ r2.idx < r1.idx)) ∧
     (∀ r ∈ c2store.search [1] none 2, ∃ c, c2store.chunks.get? r.idx = some c ∧
       (maskList c2store none).getD r.idx false = true ∧ r.score = dot c.embedding [1] ∧
       r.chunk_id = c.chunk_id ∧ r.text = c.text ∧ r.celex_id = c.celex_id) ∧
     (∀ i, i < c2store.chunks.length → (maskList c2store none).getD i false = true →
       (∀ r ∈ c2store.search [1] none 2, r.idx ≠ i) →
       ∀ r ∈ c2store.search [1] none 2,
         ∃ c, c2store.chunks.get? i = some c ∧ dot c.embedding [1] ≤ r.score)) :=
  ⟨by decide, search_spec c2store [1] none 2 (by decide)⟩

end FSI
